import Mathlib

/-!
Verification of the test-matrix runner (`scripts/test-matrix.py`).

The script is shallowly embedded: strings are handled as `List Char`,
Python dicts as insertion-ordered association lists, the child-process
facility as a boolean oracle `String → Bool`, and exceptions as `Except`.
The regular expressions of the source are embedded by their operational
behaviour (leftmost scan with the concrete backtracking behaviour of the
two patterns involved); character classes are modelled over ASCII.
Scanning functions use an explicit fuel argument (always instantiated
with the length of the scanned list) so that they are structurally
recursive and evaluate by kernel reduction.
-/

namespace TestMatrix

/-- `[A-Za-z0-9_]` — the word characters of the source's regexes. -/
def isWordChar (c : Char) : Bool :=
  ('A' ≤ c && c ≤ 'Z') || ('a' ≤ c && c ≤ 'z') || ('0' ≤ c && c ≤ '9') || c = '_'

/-- ASCII whitespace as matched by Python's `\s` / stripped by `str.strip`. -/
def isSpaceChar (c : Char) : Bool :=
  c = ' ' || c = '\t' || c = '\n' || c = '\r' || c = '\x0b' || c = '\x0c'

/-- `str.strip()`: drop leading and trailing whitespace. -/
def pyStrip (cs : List Char) : List Char :=
  ((cs.dropWhile isSpaceChar).reverse.dropWhile isSpaceChar).reverse

theorem length_dropWhile_le (p : Char → Bool) (l : List Char) :
    (l.dropWhile p).length ≤ l.length := by
  induction l with
  | nil => simp
  | cons c cs ih =>
    simp only [List.dropWhile]
    split
    · simp only [List.length_cons]; omega
    · simp

theorem length_tail_le (l : List Char) : l.tail.length ≤ l.length := by
  cases l <;> simp

/-- Python dict assignment `d[k] = v` on an insertion-ordered association
list: an existing key keeps its position and gets the new value, a new key
is appended at the end. -/
def dictUpdate (m : List (String × String)) (k v : String) :
    List (String × String) :=
  if m.any (fun p => p.1 = k) then
    m.map (fun p => if p.1 = k then (k, v) else p)
  else m ++ [(k, v)]

/-- Python `d.update(d2)`: assign every pair of `d2` into `d`, in order. -/
def dictUpdateMany (m m2 : List (String × String)) : List (String × String) :=
  m2.foldl (fun acc p => dictUpdate acc p.1 p.2) m

/-- Python dict lookup `d[k]` (keys are unique in every dict we build). -/
def envLookup (m : List (String × String)) (k : String) : Option String :=
  (m.find? (fun p => p.1 = k)).map (fun p => p.2)

/-! ## Environment-string parser (`parse_env_vars`)

The source iterates `re.finditer` with pattern
`([A-Za-z0-9_]+)=(?:"([^"]+)"|(\S*))` over `s.strip()` and assigns
`d[group 1] = group 2 or group 3`.  The engine scans left to right; at a
candidate position the greedy name run must be followed by `=`; the
quoted alternative succeeds exactly when the character after `=` is `"`
and a later `"` closes a nonempty run of non-quote characters; otherwise
`\S*` consumes the maximal non-whitespace run. -/

/-- Match the value alternatives of the parser regex against the
characters after `=`; return the captured value and the characters
remaining after the whole match. -/
def matchVal (cs : List Char) : List Char × List Char :=
  if cs.head? = some '"' ∧ cs.tail.takeWhile (fun c => c != '"') ≠ [] ∧
      cs.tail.dropWhile (fun c => c != '"') ≠ [] then
    (cs.tail.takeWhile (fun c => c != '"'),
     (cs.tail.dropWhile (fun c => c != '"')).tail)
  else
    (cs.takeWhile (fun c => !isSpaceChar c), cs.dropWhile (fun c => !isSpaceChar c))

theorem matchVal_snd_length (cs : List Char) : (matchVal cs).2.length ≤ cs.length := by
  unfold matchVal
  split
  · dsimp only
    have h1 := length_dropWhile_le (fun c => c != '"') cs.tail
    have h2 := length_tail_le (cs.tail.dropWhile (fun c => c != '"'))
    have h3 := length_tail_le cs
    omega
  · exact length_dropWhile_le _ cs

/-- The `finditer` scan, with fuel: find the matches of
`([A-Za-z0-9_]+)=(?:"([^"]+)"|(\S*))`, leftmost first, non-overlapping,
returning the `(name, value)` capture pairs in order. -/
def findMatchesGo : Nat → List Char → List (String × String)
  | _, [] => []
  | 0, _ :: _ => []
  | fuel + 1, c :: cs =>
    if isWordChar c then
      if ((c :: cs).dropWhile isWordChar).head? = some '=' then
        (String.mk ((c :: cs).takeWhile isWordChar),
         String.mk (matchVal (((c :: cs).dropWhile isWordChar).tail)).1)
          :: findMatchesGo fuel (matchVal (((c :: cs).dropWhile isWordChar).tail)).2
      else findMatchesGo fuel cs
    else findMatchesGo fuel cs

/-- The `finditer` scan with adequate fuel. -/
def findMatches (cs : List Char) : List (String × String) :=
  findMatchesGo cs.length cs

theorem dropWhile_cons_word (c : Char) (cs : List Char) (hw : isWordChar c = true) :
    (c :: cs).dropWhile isWordChar = cs.dropWhile isWordChar := by
  simp only [List.dropWhile, hw]

theorem matchTail_length (c : Char) (cs : List Char) (hw : isWordChar c = true) :
    (matchVal (((c :: cs).dropWhile isWordChar).tail)).2.length ≤ cs.length := by
  have h4 := matchVal_snd_length (((c :: cs).dropWhile isWordChar).tail)
  rw [dropWhile_cons_word c cs hw] at h4 ⊢
  have h2 := length_dropWhile_le isWordChar cs
  have h3 := length_tail_le (cs.dropWhile isWordChar)
  omega

theorem findMatchesGo_stable (f1 : Nat) : ∀ (f2 : Nat) (cs : List Char),
    cs.length ≤ f1 → cs.length ≤ f2 → findMatchesGo f1 cs = findMatchesGo f2 cs := by
  induction f1 with
  | zero =>
    intro f2 cs h1 _
    cases cs with
    | nil => cases f2 <;> rfl
    | cons c cs => simp at h1
  | succ f1 ih =>
    intro f2 cs h1 h2
    cases cs with
    | nil => cases f2 <;> rfl
    | cons c cs =>
      cases f2 with
      | zero => simp at h2
      | succ f2 =>
        simp only [List.length_cons] at h1 h2
        simp only [findMatchesGo]
        by_cases hw : isWordChar c = true
        · rw [if_pos hw, if_pos hw]
          by_cases he : ((c :: cs).dropWhile isWordChar).head? = some '='
          · rw [if_pos he, if_pos he]
            have hlen := matchTail_length c cs hw
            rw [ih f2 _ (by omega) (by omega)]
          · rw [if_neg he, if_neg he, ih f2 cs (by omega) (by omega)]
        · rw [if_neg hw, if_neg hw, ih f2 cs (by omega) (by omega)]

theorem findMatchesGo_eq (fuel : Nat) (cs : List Char) (h : cs.length ≤ fuel) :
    findMatchesGo fuel cs = findMatches cs :=
  findMatchesGo_stable fuel cs.length cs h le_rfl

theorem findMatches_nil : findMatches [] = [] := rfl

theorem findMatches_cons_not_word (c : Char) (cs : List Char)
    (h : isWordChar c = false) : findMatches (c :: cs) = findMatches cs := by
  show findMatchesGo (cs.length + 1) (c :: cs) = _
  simp only [findMatchesGo]
  rw [if_neg (by simp [h]), findMatchesGo_eq cs.length cs le_rfl]

theorem findMatches_cons_match (c : Char) (cs : List Char)
    (hw : isWordChar c = true)
    (he : ((c :: cs).dropWhile isWordChar).head? = some '=') :
    findMatches (c :: cs) =
      (String.mk ((c :: cs).takeWhile isWordChar),
       String.mk (matchVal (((c :: cs).dropWhile isWordChar).tail)).1)
        :: findMatches (matchVal (((c :: cs).dropWhile isWordChar).tail)).2 := by
  show findMatchesGo (cs.length + 1) (c :: cs) = _
  simp only [findMatchesGo]
  rw [if_pos hw, if_pos he, findMatchesGo_eq _ _ (matchTail_length c cs hw)]

theorem findMatches_cons_no_assign (c : Char) (cs : List Char)
    (hw : isWordChar c = true)
    (he : ((c :: cs).dropWhile isWordChar).head? ≠ some '=') :
    findMatches (c :: cs) = findMatches cs := by
  show findMatchesGo (cs.length + 1) (c :: cs) = _
  simp only [findMatchesGo]
  rw [if_pos hw, if_neg he, findMatchesGo_eq cs.length cs le_rfl]

/-- `parse_env_vars` from the source: scan the stripped string and build
the dict in match order (later duplicate names overwrite earlier ones). -/
def parse_env_vars (s : String) : List (String × String) :=
  dictUpdateMany [] (findMatches (pyStrip s.data))

example : parse_env_vars "X=1" = [("X", "1")] := by decide
example : parse_env_vars "K=\"a b\" L=2" = [("K", "a b"), ("L", "2")] := by decide
example : parse_env_vars "K=" = [("K", "")] := by decide
example : parse_env_vars "A=B=C" = [("A", "B=C")] := by decide
example : parse_env_vars "X=1 X=2" = [("X", "2")] := by decide
example : parse_env_vars "K=\"a b" = [("K", "\"a")] := by decide
example : parse_env_vars "!K=1" = [("K", "1")] := by decide
example : parse_env_vars "  X=1  " = [("X", "1")] := by decide

/-! ## Step substitution (`sub_env` inside `run_script`)

The source runs `re.sub(r"\$(?:([A-Za-z0-9_]+)|{([A-Za-z0-9_]+)})\b", sub_env, cmd)`
where the replacement function looks the captured name up in the
effective environment (raising `KeyError` when absent).  Operationally:
at a `$`, the first alternative fires when a nonempty word run follows
(the greedy run always ends at a word boundary); otherwise the second
alternative fires when `{`, a nonempty word run and `}` follow AND the
character after `}` is a word character — `}` is not a word character, so
the trailing `\b` demands a word character right after it.  On a match
the name is looked up; on no match the scan advances one character. -/

instance instDecEqExcept {ε α : Type} [DecidableEq ε] [DecidableEq α] :
    DecidableEq (Except ε α) := fun x y =>
  match x, y with
  | .ok a, .ok b =>
    if h : a = b then isTrue (by rw [h]) else isFalse (by simp [h])
  | .error a, .error b =>
    if h : a = b then isTrue (by rw [h]) else isFalse (by simp [h])
  | .ok _, .error _ => isFalse (by simp)
  | .error _, .ok _ => isFalse (by simp)

/-- The scan of `re.sub` with the substitution pattern, with fuel.
Errors with the variable name on a `KeyError` of the replacement
function. -/
def subEnvGo (env : List (String × String)) : Nat → List Char → Except String (List Char)
  | _, [] => .ok []
  | 0, _ :: _ => .ok []
  | fuel + 1, c :: rest =>
    if c = '$' then
      if rest.takeWhile isWordChar ≠ [] then
        match envLookup env (String.mk (rest.takeWhile isWordChar)) with
        | some v => (subEnvGo env fuel (rest.dropWhile isWordChar)).map (fun r => v.data ++ r)
        | none => .error (String.mk (rest.takeWhile isWordChar))
      else
        if rest.head? = some '{' ∧ rest.tail.takeWhile isWordChar ≠ [] ∧
            (rest.tail.dropWhile isWordChar).head? = some '}' ∧
            ((rest.tail.dropWhile isWordChar).tail.head?.map isWordChar) = some true then
          match envLookup env (String.mk (rest.tail.takeWhile isWordChar)) with
          | some v =>
            (subEnvGo env fuel ((rest.tail.dropWhile isWordChar).tail)).map
              (fun r => v.data ++ r)
          | none => .error (String.mk (rest.tail.takeWhile isWordChar))
        else (subEnvGo env fuel rest).map (fun r => '$' :: r)
    else (subEnvGo env fuel rest).map (fun r => c :: r)

/-- The substitution scan with adequate fuel, on character lists. -/
def subEnvChars (env : List (String × String)) (cs : List Char) : Except String (List Char) :=
  subEnvGo env cs.length cs

/-- Per-step variable substitution as performed by `run_script`:
substitute the pattern's matches against the effective environment,
`.error name` when a referenced name is absent. -/
def sub_env (env : List (String × String)) (s : String) : Except String String :=
  (subEnvChars env s.data).map (fun cs => String.mk cs)

theorem braceTail_length (rest : List Char) :
    ((rest.tail.dropWhile isWordChar).tail).length ≤ rest.length := by
  have h1 := length_tail_le rest
  have h2 := length_dropWhile_le isWordChar rest.tail
  have h3 := length_tail_le (rest.tail.dropWhile isWordChar)
  omega

theorem subEnvGo_stable (env : List (String × String)) (f1 : Nat) :
    ∀ (f2 : Nat) (cs : List Char), cs.length ≤ f1 → cs.length ≤ f2 →
      subEnvGo env f1 cs = subEnvGo env f2 cs := by
  induction f1 with
  | zero =>
    intro f2 cs h1 _
    cases cs with
    | nil => cases f2 <;> rfl
    | cons c cs => simp at h1
  | succ f1 ih =>
    intro f2 cs h1 h2
    cases cs with
    | nil => cases f2 <;> rfl
    | cons c rest =>
      cases f2 with
      | zero => simp at h2
      | succ f2 =>
        simp only [List.length_cons] at h1 h2
        simp only [subEnvGo]
        by_cases hd : c = '$'
        · rw [if_pos hd, if_pos hd]
          by_cases hn : rest.takeWhile isWordChar ≠ []
          · rw [if_pos hn, if_pos hn]
            have hlen := length_dropWhile_le isWordChar rest
            cases envLookup env (String.mk (rest.takeWhile isWordChar)) with
            | none => rfl
            | some v => rw [ih f2 _ (by omega) (by omega)]
          · rw [if_neg hn, if_neg hn]
            by_cases hb : rest.head? = some '{' ∧ rest.tail.takeWhile isWordChar ≠ [] ∧
                (rest.tail.dropWhile isWordChar).head? = some '}' ∧
                ((rest.tail.dropWhile isWordChar).tail.head?.map isWordChar) = some true
            · rw [if_pos hb, if_pos hb]
              have hlen := braceTail_length rest
              cases envLookup env (String.mk (rest.tail.takeWhile isWordChar)) with
              | none => rfl
              | some v => rw [ih f2 _ (by omega) (by omega)]
            · rw [if_neg hb, if_neg hb, ih f2 rest (by omega) (by omega)]
        · rw [if_neg hd, if_neg hd, ih f2 rest (by omega) (by omega)]

theorem subEnvGo_eq (env : List (String × String)) (fuel : Nat) (cs : List Char)
    (h : cs.length ≤ fuel) : subEnvGo env fuel cs = subEnvChars env cs :=
  subEnvGo_stable env fuel cs.length cs h le_rfl

theorem subEnvChars_nil (env : List (String × String)) : subEnvChars env [] = .ok [] := rfl

theorem subEnvChars_plain (env : List (String × String)) (c : Char) (rest : List Char)
    (h : c ≠ '$') :
    subEnvChars env (c :: rest) = (subEnvChars env rest).map (fun r => c :: r) := by
  show subEnvGo env (rest.length + 1) (c :: rest) = _
  simp only [subEnvGo]
  rw [if_neg h, subEnvGo_eq env rest.length rest le_rfl]

theorem subEnvChars_var (env : List (String × String)) (rest : List Char)
    (hn : rest.takeWhile isWordChar ≠ []) :
    subEnvChars env ('$' :: rest) =
      match envLookup env (String.mk (rest.takeWhile isWordChar)) with
      | some v => (subEnvChars env (rest.dropWhile isWordChar)).map (fun r => v.data ++ r)
      | none => .error (String.mk (rest.takeWhile isWordChar)) := by
  show subEnvGo env (rest.length + 1) ('$' :: rest) = _
  simp only [subEnvGo]
  rw [if_pos trivial, if_pos hn]
  cases envLookup env (String.mk (rest.takeWhile isWordChar)) with
  | none => rfl
  | some v =>
    rw [subEnvGo_eq env rest.length _ (length_dropWhile_le isWordChar rest)]

theorem subEnvChars_brace (env : List (String × String)) (rest : List Char)
    (hn : rest.takeWhile isWordChar = [])
    (hb : rest.head? = some '{' ∧ rest.tail.takeWhile isWordChar ≠ [] ∧
      (rest.tail.dropWhile isWordChar).head? = some '}' ∧
      ((rest.tail.dropWhile isWordChar).tail.head?.map isWordChar) = some true) :
    subEnvChars env ('$' :: rest) =
      match envLookup env (String.mk (rest.tail.takeWhile isWordChar)) with
      | some v =>
        (subEnvChars env ((rest.tail.dropWhile isWordChar).tail)).map (fun r => v.data ++ r)
      | none => .error (String.mk (rest.tail.takeWhile isWordChar)) := by
  show subEnvGo env (rest.length + 1) ('$' :: rest) = _
  simp only [subEnvGo]
  rw [if_pos trivial, if_neg (by simp [hn]), if_pos hb]
  cases envLookup env (String.mk (rest.tail.takeWhile isWordChar)) with
  | none => rfl
  | some v => rw [subEnvGo_eq env rest.length _ (braceTail_length rest)]

theorem subEnvChars_dollar_skip (env : List (String × String)) (rest : List Char)
    (hn : rest.takeWhile isWordChar = [])
    (hb : ¬(rest.head? = some '{' ∧ rest.tail.takeWhile isWordChar ≠ [] ∧
      (rest.tail.dropWhile isWordChar).head? = some '}' ∧
      ((rest.tail.dropWhile isWordChar).tail.head?.map isWordChar) = some true)) :
    subEnvChars env ('$' :: rest) = (subEnvChars env rest).map (fun r => '$' :: r) := by
  show subEnvGo env (rest.length + 1) ('$' :: rest) = _
  simp only [subEnvGo]
  rw [if_pos trivial, if_neg (by simp [hn]), if_neg hb, subEnvGo_eq env rest.length rest le_rfl]

example : sub_env [("X", "hello world")] "echo $X" = .ok "echo hello world" := by decide
example : sub_env [("X", "hello world")] "echo ${X}" = .ok "echo ${X}" := by decide
example : sub_env [("X", "hello world")] "echo ${X}y" = .ok "echo hello worldy" := by decide
example : sub_env [("X", "hello world")] "echo ${X}/z" = .ok "echo ${X}/z" := by decide
example : sub_env [] "echo $UNSET" = .error "UNSET" := by decide
example : sub_env [] "echo ${UNSET}" = .ok "echo ${UNSET}" := by decide
example : sub_env [("A", "1")] "$A$A" = .ok "11" := by decide
example : sub_env [("A", "1")] "x${A}b" = .ok "x1b" := by decide

/-! ## Configuration model and `translate_script` -/

/-- `str.split("&&")`: split on the two-character separator, leftmost
first, non-overlapping; `acc` carries the current part reversed. -/
def splitAmp : List Char → List Char → List (List Char)
  | acc, [] => [acc.reverse]
  | acc, '&' :: '&' :: rest => acc.reverse :: splitAmp [] rest
  | acc, c :: rest => splitAmp (c :: acc) rest

/-- `translate_script`: split the combined script string on `&&` and
strip each part. -/
def translate_script (script : String) : List String :=
  (splitAmp [] script.data).map (fun p => String.mk (pyStrip p))

example : translate_script "cargo build && cargo test" = ["cargo build", "cargo test"] := by
  decide

/-- One `matrix.include` row: an optional pinned `rust` version and an
optional raw `env` string (the source reads both with `row.get`). -/
structure OverrideRow where
  rust : Option String
  env : Option String
deriving DecidableEq

/-- The fields of `.travis.yml` the script reads: the combined `script`
string, the default version list `rust`, the optional `env` alternative
list, and `matrix.include`. -/
structure TravisConfig where
  script : String
  rust : List String
  env : Option (List String)
  matrixInclude : List OverrideRow
deriving DecidableEq

/-- One concrete run produced by the matrix expansion. -/
structure RunSpec where
  version : String
  seqId : Nat
  env : List (String × String)
deriving DecidableEq

/-! ## Run Executor (`run_script`) -/

/-- `os.path.join('target', '%s-%d' % (rust_ver, seq_id))`. -/
def targetDir (rust_ver : String) (seq_id : Nat) : String :=
  "target/" ++ rust_ver ++ "-" ++ toString seq_id

/-- `'multirust run %s %s' % (rust_ver, cmd)` — the executed command line. -/
def commandLine (rust_ver cmd : String) : String :=
  "multirust run " ++ rust_ver ++ " " ++ cmd

/-- The effective process environment of one run:
`cmd_env = os.environ.copy()`, then `cmd_env['CARGO_TARGET_DIR'] = target_dir`,
then `cmd_env.update(env)`. -/
def effectiveEnv (rust_ver : String) (seq_id : Nat)
    (env osEnviron : List (String × String)) : List (String × String) :=
  dictUpdateMany (dictUpdate osEnviron "CARGO_TARGET_DIR" (targetDir rust_ver seq_id)) env

/-- The step loop of `run_script`: substitute (a `KeyError` escapes as
`.error`), execute through the oracle, short-circuit on the first failed
step.  Returns overall success and the executed command lines. -/
def runSteps (cmd_env : List (String × String)) (rust_ver : String)
    (exec : String → Bool) : List String → Except String (Bool × List String)
  | [] => .ok (true, [])
  | cmd :: rest =>
    match sub_env cmd_env cmd with
    | .error e => .error e
    | .ok cmdSub =>
      if exec (commandLine rust_ver cmdSub) then
        match runSteps cmd_env rust_ver exec rest with
        | .error e => .error e
        | .ok p => .ok (p.1, commandLine rust_ver cmdSub :: p.2)
      else .ok (false, [commandLine rust_ver cmdSub])

/-- `run_script` on one run specification. -/
def run_script (script : List String) (rust_ver : String) (seq_id : Nat)
    (env osEnviron : List (String × String)) (exec : String → Bool) :
    Except String (Bool × List String) :=
  runSteps (effectiveEnv rust_ver seq_id env osEnviron) rust_ver exec script

/-- Substitution of a whole step list (the eager per-step substitutions
of one run, abstracted from execution). -/
def subAll (cmd_env : List (String × String)) : List String → Except String (List String)
  | [] => .ok []
  | cmd :: rest =>
    match sub_env cmd_env cmd with
    | .error e => .error e
    | .ok c => (subAll cmd_env rest).map (fun l => c :: l)

/-! ## Version Selector (argument loop of `main`) -/

/-- The argument loop: `include_vers` grows with version arguments not
already included, `exclude_vers` collects `-`-stripped versions, any
other argument is fatal (`sys.exit(1)`). -/
def selectLoop (vers : List String) :
    List String → List String → List String → Except String (List String × List String)
  | inc, exc, [] => .ok (inc, exc)
  | inc, exc, arg :: args =>
    if arg ∈ vers ∧ arg ∉ inc then selectLoop vers (inc ++ [arg]) exc args
    else if arg.data.head? = some '-' ∧ String.mk arg.data.tail ∈ vers then
      selectLoop vers inc
        (if String.mk arg.data.tail ∈ exc then exc else exc ++ [String.mk arg.data.tail]) args
    else .error arg

/-- Version resolution in `main`: explicit includes (else the default
list), minus the exclude set. -/
def resolveVers (defaults args : List String) : Except String (List String) :=
  match selectLoop defaults [] [] args with
  | .error a => .error a
  | .ok (inc, exc) =>
    .ok ((if inc = [] then defaults else inc).filter (fun v => v ∉ exc))

example : resolveVers ["a", "b", "c"] ["b", "-a"] = .ok ["b"] := by decide
example : resolveVers ["a", "b", "c"] ["-a"] = .ok ["b", "c"] := by decide
example : resolveVers ["a", "b", "c"] ["zzz"] = .error "zzz" := by decide
example : resolveVers ["a", "b", "c"] ["b", "b"] = .error "b" := by decide
example : resolveVers ["a", "b", "c"] ["b", "-b"] = .ok [] := by decide
example : resolveVers ["a", "b", "c"] [] = .ok ["a", "b", "c"] := by decide

/-! ## Matrix Expander (nested loops of `main`) -/

/-- The synthetic first row `{}` of `chain([{}], matrix_includes)`. -/
def emptyRow : OverrideRow := ⟨none, none⟩

/-- `row.get('rust', None) not in (None, rust_ver)` skips the row; it is
kept when the pin is absent or equals the current version. -/
def rowKept (rust_ver : String) (row : OverrideRow) : Bool :=
  match row.rust with
  | none => true
  | some r => r = rust_ver

/-- The run's own environment:
`cmd_env = {}`, `cmd_env.update(env_vars)`, `cmd_env.update(row_env_vars)`. -/
def rowMergedEnv (env_var_str : String) (row : OverrideRow) : List (String × String) :=
  dictUpdateMany (dictUpdateMany [] (parse_env_vars env_var_str))
    (parse_env_vars (row.env.getD ""))

/-- Row loop of the expansion for one (version, env alternative), carrying
the emitted specs and the per-version `seq_id` counter. -/
def expandRows (rust_ver : String) (env_var_str : String) :
    List OverrideRow → List RunSpec × Nat → List RunSpec × Nat
  | [], st => st
  | row :: rest, st =>
    if rowKept rust_ver row then
      expandRows rust_ver env_var_str rest
        (st.1 ++ [⟨rust_ver, st.2, rowMergedEnv env_var_str row⟩], st.2 + 1)
    else expandRows rust_ver env_var_str rest st

/-- Env-alternative loop of the expansion for one version. -/
def expandAlts (rust_ver : String) (rows : List OverrideRow) :
    List String → List RunSpec × Nat → List RunSpec × Nat
  | [], st => st
  | e :: es, st => expandAlts rust_ver rows es (expandRows rust_ver e rows st)

/-- The Matrix Expander for one version: the `RunSpec`s emitted by the
nested loops of `main`, in generation order (`travis.get('env', [""])`
outer, `chain([{}], matrix_includes)` inner, `seq_id` from 0). -/
def expandVer (cfg : TravisConfig) (rust_ver : String) : List RunSpec :=
  (expandAlts rust_ver (emptyRow :: cfg.matrixInclude) (cfg.env.getD [""]) ([], 0)).1

/-- All versions' specs in order. -/
def expandAll (cfg : TravisConfig) : List String → List RunSpec
  | [] => []
  | v :: vs => expandVer cfg v ++ expandAll cfg vs

/-- Stated from the spec (§4.3): the kept (envAlternative, row) pairs —
each env alternative in configured order, and within it the conceptual
row list (synthetic "no override" row first, then the configured rows)
filtered by the pin rule. -/
def keptPairs (cfg : TravisConfig) (rust_ver : String) : List (String × OverrideRow) :=
  ((cfg.env.getD [""]).map (fun e =>
    ((emptyRow :: cfg.matrixInclude).filter (rowKept rust_ver)).map (fun r => (e, r)))).flatten

/-- Stated from the spec (§4.3): one `RunSpec` per kept pair, sequence
index enumerated from 0 in generation order, environment = parsed env
alternative overlaid with the parsed row env (row keys win). -/
def expandVerSpec (cfg : TravisConfig) (rust_ver : String) : List RunSpec :=
  (keptPairs cfg rust_ver).enum.map (fun p =>
    ⟨rust_ver, p.1, dictUpdateMany (parse_env_vars p.2.1)
      (parse_env_vars (p.2.2.env.getD ""))⟩)

/-! ## Main loop: interleaved expansion and execution -/

/-- Inner row loop of `main`: for each kept row, run `run_script` on the
generated spec and append `(rust_ver, seq_id, success)` to the results. -/
def runRows (script : List String) (rust_ver : String)
    (osEnviron : List (String × String)) (exec : String → Bool)
    (env_var_str : String) :
    List OverrideRow → List (String × Nat × Bool) × Nat →
      Except String (List (String × Nat × Bool) × Nat)
  | [], st => .ok st
  | row :: rest, st =>
    if rowKept rust_ver row then
      match run_script script rust_ver st.2 (rowMergedEnv env_var_str row) osEnviron exec with
      | .error e => .error e
      | .ok res => runRows script rust_ver osEnviron exec env_var_str rest
          (st.1 ++ [(rust_ver, st.2, res.1)], st.2 + 1)
    else runRows script rust_ver osEnviron exec env_var_str rest st

/-- Env-alternative loop of `main` for one version. -/
def runAlts (script : List String) (rust_ver : String)
    (osEnviron : List (String × String)) (exec : String → Bool)
    (rows : List OverrideRow) :
    List String → List (String × Nat × Bool) × Nat →
      Except String (List (String × Nat × Bool) × Nat)
  | [], st => .ok st
  | e :: es, st =>
    match runRows script rust_ver osEnviron exec e rows st with
    | .error err => .error err
    | .ok st2 => runAlts script rust_ver osEnviron exec rows es st2

/-- Version loop of `main`: `seq_id` resets to 0 per version, results
accumulate across versions. -/
def runVers (cfg : TravisConfig) (osEnviron : List (String × String))
    (exec : String → Bool) :
    List String → List (String × Nat × Bool) →
      Except String (List (String × Nat × Bool))
  | [], results => .ok results
  | v :: vs, results =>
    match runAlts (translate_script cfg.script) v osEnviron exec
        (emptyRow :: cfg.matrixInclude) (cfg.env.getD [""]) (results, 0) with
    | .error e => .error e
    | .ok st => runVers cfg osEnviron exec vs st.1

/-- Sequential execution of a list of run specifications (the run phase
of `main`, after expansion has been factored out). -/
def runSpecList (script : List String) (osEnviron : List (String × String))
    (exec : String → Bool) :
    List RunSpec → Except String (List (String × Nat × Bool))
  | [] => .ok []
  | s :: rest =>
    match run_script script s.version s.seqId s.env osEnviron exec with
    | .error e => .error e
    | .ok res =>
      match runSpecList script osEnviron exec rest with
      | .error e => .error e
      | .ok lst => .ok ((s.version, s.seqId, res.1) :: lst)

/-- Outcome of one invocation of `main`: `sys.exit(1)` on an unrecognized
argument (before any run), an uncaught `KeyError` from substitution
(aborting the whole matrix), or normal completion with the results list. -/
inductive MainOutcome where
  | usage (arg : String)
  | uncaught (name : String)
  | done (results : List (String × Nat × Bool))
deriving DecidableEq

/-- The whole of `main`, over a loaded configuration, the command-line
arguments, the ambient process environment and the process oracle. -/
def mainModel (cfg : TravisConfig) (args : List String)
    (osEnviron : List (String × String)) (exec : String → Bool) : MainOutcome :=
  match resolveVers cfg.rust args with
  | .error a => .usage a
  | .ok rust_vers =>
    match runVers cfg osEnviron exec rust_vers [] with
    | .error e => .uncaught e
    | .ok results => .done results

/-- Process exit status: `sys.exit(1)` on a usage error, status 1 on an
uncaught exception, status 0 on normal return — regardless of the
results. -/
def exitCode : MainOutcome → Nat
  | .usage _ => 1
  | .uncaught _ => 1
  | .done _ => 0

example :
    expandVer ⟨"x", ["v"], some ["X=1", "X=2"], []⟩ "v" =
      [⟨"v", 0, [("X", "1")]⟩, ⟨"v", 1, [("X", "2")]⟩] := by decide

example :
    expandVer ⟨"x", ["stable", "beta"], none, [⟨some "stable", some "Y=9"⟩]⟩ "beta" =
      [⟨"beta", 0, []⟩] := by decide

example :
    expandVer ⟨"x", ["stable", "beta"], none, [⟨some "stable", some "Y=9"⟩]⟩ "stable" =
      [⟨"stable", 0, []⟩, ⟨"stable", 1, [("Y", "9")]⟩] := by decide

example :
    mainModel ⟨"echo $HOME", ["s"], none, []⟩ [] [("HOME", "/h")] (fun _ => true) =
      .done [("s", 0, true)] := by decide

example :
    mainModel ⟨"echo $HOME", ["s"], none, []⟩ [] [] (fun _ => true) =
      .uncaught "HOME" := by decide

example :
    mainModel ⟨"true", ["s"], none, []⟩ ["zzz"] [] (fun _ => true) = .usage "zzz" := by decide

/-! ## Helper lemmas on runs of characters -/

theorem takeWhile_append_all (p : Char → Bool) (a b : List Char)
    (h : ∀ c ∈ a, p c = true) : (a ++ b).takeWhile p = a ++ b.takeWhile p := by
  induction a with
  | nil => simp
  | cons c cs ih =>
    rw [List.cons_append, List.takeWhile_cons p c (cs ++ b), if_pos (h c (by simp)),
      ih (fun x hx => h x (by simp [hx])), List.cons_append]

theorem dropWhile_append_all (p : Char → Bool) (a b : List Char)
    (h : ∀ c ∈ a, p c = true) : (a ++ b).dropWhile p = b.dropWhile p := by
  induction a with
  | nil => simp
  | cons c cs ih =>
    rw [List.cons_append, List.dropWhile_cons, if_pos (h c (by simp)),
      ih (fun x hx => h x (by simp [hx]))]

theorem takeWhile_head_not (p : Char → Bool) (b : List Char)
    (h : b.head?.map p ≠ some true) : b.takeWhile p = [] := by
  cases b with
  | nil => rfl
  | cons c cs =>
    simp only [List.head?_cons, Option.map_some] at h
    rw [List.takeWhile_cons p c cs, if_neg (by simpa using h)]

theorem dropWhile_head_not (p : Char → Bool) (b : List Char)
    (h : b.head?.map p ≠ some true) : b.dropWhile p = b := by
  cases b with
  | nil => rfl
  | cons c cs =>
    simp only [List.head?_cons, Option.map_some] at h
    rw [List.dropWhile_cons, if_neg (by simpa using h)]

theorem name_run_split (name post : List Char)
    (hword : ∀ c ∈ name, isWordChar c = true)
    (hpost : post.head?.map isWordChar ≠ some true) :
    (name ++ post).takeWhile isWordChar = name ∧
    (name ++ post).dropWhile isWordChar = post := by
  refine ⟨?_, ?_⟩
  · rw [takeWhile_append_all _ _ _ hword, takeWhile_head_not _ _ hpost, List.append_nil]
  · rw [dropWhile_append_all _ _ _ hword, dropWhile_head_not _ _ hpost]

theorem word_ne_dollar {c : Char} (h : isWordChar c = true) : c ≠ '$' := by
  intro he; subst he; simp [isWordChar] at h

/-! ## Behaviour of the substitution scan -/

/-- Characters before the first `$` pass through the scan untouched. -/
theorem subEnvChars_append_front (env : List (String × String)) (pre rest : List Char)
    (h : '$' ∉ pre) :
    subEnvChars env (pre ++ rest) = (subEnvChars env rest).map (fun r => pre ++ r) := by
  induction pre with
  | nil =>
    simp only [List.nil_append]
    cases subEnvChars env rest <;> rfl
  | cons c cs ih =>
    have hc : c ≠ '$' := fun he => h (by simp [he])
    rw [List.cons_append, subEnvChars_plain env c _ hc,
      ih (fun hm => h (List.mem_cons_of_mem _ hm))]
    cases subEnvChars env rest <;> rfl

/-- A step with no `$` at all is returned unchanged. -/
theorem subEnvChars_no_dollar (env : List (String × String)) (l : List Char)
    (h : '$' ∉ l) : subEnvChars env l = .ok l := by
  have := subEnvChars_append_front env l [] h
  rw [List.append_nil] at this
  rw [this, subEnvChars_nil]
  show Except.ok (l ++ []) = _
  rw [List.append_nil]

/-- A matched `$NAME` reference with `NAME` present substitutes the value
and the scan continues right after the name. -/
theorem subst_var_found (env : List (String × String)) (name v : String) (post : List Char)
    (hname : name.data ≠ [])
    (hword : ∀ c ∈ name.data, isWordChar c = true)
    (hpost : post.head?.map isWordChar ≠ some true)
    (hlook : envLookup env name = some v) :
    subEnvChars env ('$' :: (name.data ++ post)) =
      (subEnvChars env post).map (fun r => v.data ++ r) := by
  have hsplit := name_run_split name.data post hword hpost
  rw [subEnvChars_var env _ (by rw [hsplit.1]; exact hname), hsplit.1, hsplit.2]
  have hmk : String.mk name.data = name := rfl
  rw [hmk, hlook]

/-- A matched `$NAME` reference with `NAME` absent raises the `KeyError`. -/
theorem subst_var_absent (env : List (String × String)) (name : String) (post : List Char)
    (hname : name.data ≠ [])
    (hword : ∀ c ∈ name.data, isWordChar c = true)
    (hpost : post.head?.map isWordChar ≠ some true)
    (hlook : envLookup env name = none) :
    subEnvChars env ('$' :: (name.data ++ post)) = .error name := by
  have hsplit := name_run_split name.data post hword hpost
  rw [subEnvChars_var env _ (by rw [hsplit.1]; exact hname), hsplit.1]
  have hmk : String.mk name.data = name := rfl
  rw [hmk, hlook]

theorem brace_cond_holds (name : List Char) (d : Char) (t : List Char)
    (hname : name ≠ [])
    (hword : ∀ c ∈ name, isWordChar c = true)
    (hd : isWordChar d = true) :
    let rest := '{' :: (name ++ '}' :: d :: t)
    rest.head? = some '{' ∧ rest.tail.takeWhile isWordChar ≠ [] ∧
      (rest.tail.dropWhile isWordChar).head? = some '}' ∧
      ((rest.tail.dropWhile isWordChar).tail.head?.map isWordChar) = some true := by
  intro rest
  have hpost : (('}' :: d :: t).head?.map isWordChar) ≠ some true := by
    show Option.map isWordChar (some '\x7d') ≠ some true
    decide
  have hsplit := name_run_split name ('}' :: d :: t) hword hpost
  refine ⟨rfl, ?_, ?_, ?_⟩
  · show (name ++ '}' :: d :: t).takeWhile isWordChar ≠ []
    rw [hsplit.1]; exact hname
  · show ((name ++ '}' :: d :: t).dropWhile isWordChar).head? = some '}'
    rw [hsplit.2]; rfl
  · show (((name ++ '}' :: d :: t).dropWhile isWordChar).tail.head?.map isWordChar) = some true
    rw [hsplit.2]
    simp [hd]

/-- A matched `${NAME}` reference — the `}` must be followed by a word
character for the pattern's trailing `\b` to hold — substitutes when
`NAME` is present; the scan continues at the word character. -/
theorem subst_brace_found (env : List (String × String)) (name v : String)
    (d : Char) (t : List Char)
    (hname : name.data ≠ [])
    (hword : ∀ c ∈ name.data, isWordChar c = true)
    (hd : isWordChar d = true)
    (hlook : envLookup env name = some v) :
    subEnvChars env ('$' :: '{' :: (name.data ++ '}' :: d :: t)) =
      (subEnvChars env (d :: t)).map (fun r => v.data ++ r) := by
  have hb := brace_cond_holds name.data d t hname hword hd
  have hn : ('{' :: (name.data ++ '}' :: d :: t)).takeWhile isWordChar = [] := by
    rw [List.takeWhile_cons, if_neg (by decide)]
  rw [subEnvChars_brace env _ hn hb]
  have hpost : (('}' :: d :: t).head?.map isWordChar) ≠ some true := by
    show Option.map isWordChar (some '\x7d') ≠ some true
    decide
  have hsplit := name_run_split name.data ('}' :: d :: t) hword hpost
  have htail : ('{' :: (name.data ++ '}' :: d :: t)).tail = name.data ++ '}' :: d :: t := rfl
  rw [htail, hsplit.1, hsplit.2]
  have hmk : String.mk name.data = name := rfl
  rw [hmk, hlook]
  exact rfl

/-- A matched `${NAME}` reference with `NAME` absent raises the `KeyError`. -/
theorem subst_brace_absent (env : List (String × String)) (name : String)
    (d : Char) (t : List Char)
    (hname : name.data ≠ [])
    (hword : ∀ c ∈ name.data, isWordChar c = true)
    (hd : isWordChar d = true)
    (hlook : envLookup env name = none) :
    subEnvChars env ('$' :: '{' :: (name.data ++ '}' :: d :: t)) = .error name := by
  have hb := brace_cond_holds name.data d t hname hword hd
  have hn : ('{' :: (name.data ++ '}' :: d :: t)).takeWhile isWordChar = [] := by
    rw [List.takeWhile_cons, if_neg (by decide)]
  rw [subEnvChars_brace env _ hn hb]
  have hpost : (('}' :: d :: t).head?.map isWordChar) ≠ some true := by
    show Option.map isWordChar (some '\x7d') ≠ some true
    decide
  have hsplit := name_run_split name.data ('}' :: d :: t) hword hpost
  have htail : ('{' :: (name.data ++ '}' :: d :: t)).tail = name.data ++ '}' :: d :: t := rfl
  rw [htail, hsplit.1]
  have hmk : String.mk name.data = name := rfl
  rw [hmk, hlook]

/-- A `${NAME}` occurrence at the very end of the step matches nothing
(no word character follows `}`, so the trailing `\b` fails): the scan
emits the `$` and passes the rest through unchanged. -/
theorem subst_brace_at_end (env : List (String × String)) (name : String)
    (hword : ∀ c ∈ name.data, isWordChar c = true) :
    subEnvChars env ('$' :: '{' :: (name.data ++ ['}'])) =
      .ok ('$' :: '{' :: (name.data ++ ['}'])) := by
  have hpost : ((['}'] : List Char).head?.map isWordChar) ≠ some true := by decide
  have hsplit := name_run_split name.data ['}'] hword hpost
  have hn : ('{' :: (name.data ++ ['}'])).takeWhile isWordChar = [] := by
    rw [List.takeWhile_cons, if_neg (by decide)]
  have hnb : ¬(('{' :: (name.data ++ ['}'])).head? = some '{' ∧
      ('{' :: (name.data ++ ['}'])).tail.takeWhile isWordChar ≠ [] ∧
      (('{' :: (name.data ++ ['}'])).tail.dropWhile isWordChar).head? = some '}' ∧
      ((('{' :: (name.data ++ ['}'])).tail.dropWhile isWordChar).tail.head?.map isWordChar)
        = some true) := by
    intro h
    have h4 := h.2.2.2
    have htail : ('{' :: (name.data ++ ['}'])).tail = name.data ++ ['}'] := rfl
    rw [htail, hsplit.2] at h4
    simp at h4
  rw [subEnvChars_dollar_skip env _ hn hnb]
  have hrest : '$' ∉ ('{' :: (name.data ++ ['}'])) := by
    intro hm
    rcases List.mem_cons.mp hm with h | h
    · exact absurd h.symm (by decide)
    · rcases List.mem_append.mp h with h | h
      · exact word_ne_dollar (hword _ h) rfl
      · simp only [List.mem_singleton] at h
        exact absurd h.symm (by decide)
  rw [subEnvChars_no_dollar env _ hrest]
  rfl

/-! ## Dictionary lemmas -/

/-- The keys of an association list, in order. -/
def envKeys (m : List (String × String)) : List String := m.map (fun p => p.1)

theorem any_key_iff (m : List (String × String)) (k : String) :
    m.any (fun p => decide (p.1 = k)) = true ↔ k ∈ envKeys m := by
  rw [List.any_eq_true]
  constructor
  · rintro ⟨p, hp, he⟩
    simp only [decide_eq_true_eq] at he
    exact he ▸ List.mem_map_of_mem _ hp
  · intro hk
    rcases List.mem_map.mp hk with ⟨p, hp, he⟩
    exact ⟨p, hp, by simp [he]⟩

theorem envKeys_replace (m : List (String × String)) (k v : String) :
    envKeys (m.map (fun p => if p.1 = k then (k, v) else p)) = envKeys m := by
  unfold envKeys
  rw [List.map_map]
  apply List.map_congr_left
  intro p _
  by_cases h : p.1 = k
  · simp [Function.comp, h]
  · simp [Function.comp, h]

theorem envKeys_dictUpdate_mem (m : List (String × String)) (k v : String)
    (h : k ∈ envKeys m) : envKeys (dictUpdate m k v) = envKeys m := by
  unfold dictUpdate
  rw [if_pos ((any_key_iff m k).mpr h)]
  exact envKeys_replace m k v

theorem envKeys_dictUpdate_new (m : List (String × String)) (k v : String)
    (h : k ∉ envKeys m) : envKeys (dictUpdate m k v) = envKeys m ++ [k] := by
  unfold dictUpdate
  rw [if_neg (fun ha => h ((any_key_iff m k).mp ha))]
  unfold envKeys
  simp

theorem nodup_envKeys_dictUpdate (m : List (String × String)) (k v : String)
    (h : (envKeys m).Nodup) : (envKeys (dictUpdate m k v)).Nodup := by
  by_cases hk : k ∈ envKeys m
  · rw [envKeys_dictUpdate_mem m k v hk]; exact h
  · rw [envKeys_dictUpdate_new m k v hk]
    simp [List.nodup_append, h, hk]

theorem nodup_envKeys_dictUpdateMany (l : List (String × String)) :
    ∀ m, (envKeys m).Nodup → (envKeys (dictUpdateMany m l)).Nodup := by
  induction l with
  | nil => intro m h; exact h
  | cons p rest ih =>
    intro m h
    exact ih (dictUpdate m p.1 p.2) (nodup_envKeys_dictUpdate m p.1 p.2 h)

theorem nodup_envKeys_parse (s : String) : (envKeys (parse_env_vars s)).Nodup :=
  nodup_envKeys_dictUpdateMany _ [] (by simp [envKeys])

theorem mem_dictUpdateMany (l : List (String × String)) :
    ∀ m p, p ∈ dictUpdateMany m l → p ∈ m ∨ p ∈ l := by
  induction l with
  | nil => intro m p h; exact Or.inl h
  | cons q rest ih =>
    intro m p h
    rcases ih (dictUpdate m q.1 q.2) p h with h2 | h2
    · unfold dictUpdate at h2
      split at h2
      · rcases List.mem_map.mp h2 with ⟨r, hr, he⟩
        by_cases hrk : r.1 = q.1
        · rw [if_pos hrk] at he
          right
          rw [← he, Prod.mk.eta]
          exact List.mem_cons_self _ _
        · rw [if_neg hrk] at he
          exact Or.inl (he ▸ hr)
      · rcases List.mem_append.mp h2 with h3 | h3
        · exact Or.inl h3
        · right
          rw [List.mem_singleton.mp h3, Prod.mk.eta]
          exact List.mem_cons_self _ _
    · exact Or.inr (List.mem_cons_of_mem _ h2)

theorem mem_parse_env_vars (s : String) (p : String × String)
    (h : p ∈ parse_env_vars s) : p ∈ findMatches (pyStrip s.data) := by
  rcases mem_dictUpdateMany _ [] p h with h2 | h2
  · simp at h2
  · exact h2

theorem dictUpdateMany_append_disjoint (l : List (String × String)) :
    ∀ m, (∀ k ∈ envKeys l, k ∉ envKeys m) → (envKeys l).Nodup →
      dictUpdateMany m l = m ++ l := by
  induction l with
  | nil => intro m _ _; simp [dictUpdateMany]
  | cons p rest ih =>
    intro m hdisj hnodup
    have hp1 : p.1 ∉ envKeys m := hdisj p.1 (by simp [envKeys])
    have step : dictUpdate m p.1 p.2 = m ++ [p] := by
      unfold dictUpdate
      rw [if_neg (fun ha => hp1 ((any_key_iff m p.1).mp ha))]
    show dictUpdateMany (dictUpdate m p.1 p.2) rest = m ++ p :: rest
    rw [step, ih (m ++ [p]) ?_ ?_, List.append_assoc]
    · rfl
    · intro k hk hm
      have hk2 : k ∈ envKeys (p :: rest) := List.mem_cons_of_mem _ hk
      have hm2 : k ∈ envKeys m ++ [p.1] := by
        unfold envKeys at hm
        rw [List.map_append] at hm
        exact hm
      rcases List.mem_append.mp hm2 with h3 | h3
      · exact hdisj k hk2 h3
      · have hkp : k = p.1 := List.mem_singleton.mp h3
        have hcons : envKeys (p :: rest) = p.1 :: envKeys rest := rfl
        rw [hcons] at hnodup
        exact (List.nodup_cons.mp hnodup).1 (hkp ▸ hk)
    · have hcons : envKeys (p :: rest) = p.1 :: envKeys rest := rfl
      rw [hcons] at hnodup
      exact (List.nodup_cons.mp hnodup).2

theorem dictUpdateMany_nil_self (m : List (String × String))
    (h : (envKeys m).Nodup) : dictUpdateMany [] m = m := by
  have := dictUpdateMany_append_disjoint m [] (by simp [envKeys]) h
  simpa using this

/-- The merged row environment equals the overlay of the two parsed maps
(the `{}`-seeded first update is the identity). -/
theorem rowMergedEnv_eq (env_var_str : String) (row : OverrideRow) :
    rowMergedEnv env_var_str row =
      dictUpdateMany (parse_env_vars env_var_str) (parse_env_vars (row.env.getD "")) := by
  unfold rowMergedEnv
  rw [dictUpdateMany_nil_self _ (nodup_envKeys_parse env_var_str)]

/-! ## Characterization of the Matrix Expander -/

theorem expandRows_acc (ver e : String) (rows : List OverrideRow) :
    ∀ specs n, expandRows ver e rows (specs, n) =
      (specs ++ (expandRows ver e rows ([], n)).1, (expandRows ver e rows ([], n)).2) := by
  induction rows with
  | nil => intro specs n; simp [expandRows]
  | cons row rest ih =>
    intro specs n
    simp only [expandRows]
    by_cases h : rowKept ver row = true
    · rw [if_pos h, if_pos h, ih, List.nil_append, ih [⟨ver, n, rowMergedEnv e row⟩] (n + 1),
        List.append_assoc]
    · rw [if_neg h, if_neg h]
      exact ih specs n

theorem expandRows_char (ver e : String) (rows : List OverrideRow) : ∀ n,
    expandRows ver e rows ([], n) =
      (((rows.filter (rowKept ver)).enumFrom n).map
        (fun p => (⟨ver, p.1, rowMergedEnv e p.2⟩ : RunSpec)),
       n + (rows.filter (rowKept ver)).length) := by
  induction rows with
  | nil => intro n; simp [expandRows]
  | cons row rest ih =>
    intro n
    simp only [expandRows]
    by_cases h : rowKept ver row = true
    · rw [if_pos h, List.nil_append, expandRows_acc, ih (n + 1), List.filter_cons_of_pos h,
        List.enumFrom_cons]
      simp only [List.map_cons, List.length_cons, Prod.mk.injEq]
      refine ⟨rfl, by omega⟩
    · rw [if_neg h, ih n, List.filter_cons_of_neg h]

theorem expandAlts_acc (ver : String) (rows : List OverrideRow) (es : List String) :
    ∀ specs n, expandAlts ver rows es (specs, n) =
      (specs ++ (expandAlts ver rows es ([], n)).1, (expandAlts ver rows es ([], n)).2) := by
  induction es with
  | nil => intro specs n; simp [expandAlts]
  | cons e es ih =>
    intro specs n
    show expandAlts ver rows es (expandRows ver e rows (specs, n)) = _
    rw [expandRows_acc]
    rw [ih (specs ++ (expandRows ver e rows ([], n)).1) (expandRows ver e rows ([], n)).2]
    show _ = (specs ++ (expandAlts ver rows es (expandRows ver e rows ([], n))).1,
      (expandAlts ver rows es (expandRows ver e rows ([], n))).2)
    have h2 : expandRows ver e rows ([], n) =
        ((expandRows ver e rows ([], n)).1, (expandRows ver e rows ([], n)).2) := rfl
    rw [h2, ih (expandRows ver e rows ([], n)).1 (expandRows ver e rows ([], n)).2,
      List.append_assoc]

/-- The kept (env alternative, row) pairs of the tail env list. -/
def keptPairsOf (ver : String) (rows : List OverrideRow) (es : List String) :
    List (String × OverrideRow) :=
  (es.map (fun e => (rows.filter (rowKept ver)).map (fun r => (e, r)))).flatten

theorem expandAlts_char (ver : String) (rows : List OverrideRow) (es : List String) : ∀ n,
    expandAlts ver rows es ([], n) =
      (((keptPairsOf ver rows es).enumFrom n).map
        (fun p => (⟨ver, p.1, rowMergedEnv p.2.1 p.2.2⟩ : RunSpec)),
       n + (keptPairsOf ver rows es).length) := by
  induction es with
  | nil => intro n; simp [expandAlts, keptPairsOf]
  | cons e es ih =>
    intro n
    show expandAlts ver rows es (expandRows ver e rows ([], n)) = _
    rw [expandRows_char ver e rows n, expandAlts_acc, ih (n + (rows.filter (rowKept ver)).length)]
    have hpairs : keptPairsOf ver rows (e :: es) =
        (rows.filter (rowKept ver)).map (fun r => (e, r)) ++ keptPairsOf ver rows es := by
      simp [keptPairsOf]
    rw [hpairs, List.enumFrom_append, List.map_append]
    simp only [List.length_map, List.length_append, Prod.mk.injEq]
    refine ⟨?_, by omega⟩
    congr 1
    rw [List.enumFrom_map n (rows.filter (rowKept ver)) (fun r => (e, r)), List.map_map]
    rfl

/-- The Matrix Expander agrees with the specification-side description:
one `RunSpec` per kept (envAlternative, overrideRow) pair, in iteration
order, sequence-indexed from 0, with the row environment overlaid on the
alternative environment. -/
theorem expandVer_eq_spec (cfg : TravisConfig) (rust_ver : String) :
    expandVer cfg rust_ver = expandVerSpec cfg rust_ver := by
  unfold expandVer expandVerSpec
  rw [expandAlts_char]
  show (((keptPairsOf rust_ver (emptyRow :: cfg.matrixInclude) (cfg.env.getD [""])).enumFrom 0).map
    (fun p => (⟨rust_ver, p.1, rowMergedEnv p.2.1 p.2.2⟩ : RunSpec))) = _
  have hkp : keptPairs cfg rust_ver =
      keptPairsOf rust_ver (emptyRow :: cfg.matrixInclude) (cfg.env.getD [""]) := rfl
  rw [← hkp]
  unfold List.enum
  apply List.map_congr_left
  intro p _
  rw [rowMergedEnv_eq]

theorem expandVer_seq_ids (cfg : TravisConfig) (rust_ver : String) :
    (expandVer cfg rust_ver).map (fun s => s.seqId) =
      List.range (expandVer cfg rust_ver).length := by
  rw [expandVer_eq_spec]
  unfold expandVerSpec
  rw [List.map_map, List.length_map]
  have h1 : ((fun s => RunSpec.seqId s) ∘
      (fun p => (⟨rust_ver, p.1, dictUpdateMany (parse_env_vars p.2.1)
        (parse_env_vars (p.2.2.env.getD ""))⟩ : RunSpec))) =
      (fun p : Nat × (String × OverrideRow) => p.1) := rfl
  rw [h1]
  have h2 := List.enum_map_fst (keptPairs cfg rust_ver)
  rw [h2, List.enum_length]

/-! ## Bridge: the interleaved main loop equals expansion followed by
sequential execution -/

theorem runSpecList_cons (script : List String) (os : List (String × String))
    (exec : String → Bool) (s : RunSpec) (rest : List RunSpec) :
    runSpecList script os exec (s :: rest) =
      match run_script script s.version s.seqId s.env os exec with
      | .error e => .error e
      | .ok res =>
        match runSpecList script os exec rest with
        | .error e => .error e
        | .ok lst => .ok ((s.version, s.seqId, res.1) :: lst) := rfl

theorem runSpecList_append (script : List String) (os : List (String × String))
    (exec : String → Bool) (l1 l2 : List RunSpec) :
    runSpecList script os exec (l1 ++ l2) =
      match runSpecList script os exec l1 with
      | .error e => Except.error e
      | .ok a =>
        match runSpecList script os exec l2 with
        | .error e => Except.error e
        | .ok b => Except.ok (a ++ b) := by
  induction l1 with
  | nil =>
    simp only [List.nil_append, runSpecList]
    cases runSpecList script os exec l2 <;> rfl
  | cons s rest ih =>
    rw [List.cons_append, runSpecList_cons, runSpecList_cons, ih]
    cases run_script script s.version s.seqId s.env os exec with
    | error e => rfl
    | ok res =>
      cases runSpecList script os exec rest with
      | error e => rfl
      | ok a =>
        cases runSpecList script os exec l2 <;> rfl

theorem runRows_bridge (script : List String) (ver : String)
    (os : List (String × String)) (exec : String → Bool) (e : String)
    (rows : List OverrideRow) :
    ∀ results n, runRows script ver os exec e rows (results, n) =
      match runSpecList script os exec (expandRows ver e rows ([], n)).1 with
      | .error err => Except.error err
      | .ok lst => Except.ok (results ++ lst, (expandRows ver e rows ([], n)).2) := by
  induction rows with
  | nil =>
    intro results n
    simp [runRows, expandRows, runSpecList]
  | cons row rest ih =>
    intro results n
    simp only [runRows, expandRows]
    by_cases h : rowKept ver row = true
    · rw [if_pos h, if_pos h, List.nil_append]
      have hacc := expandRows_acc ver e rest [⟨ver, n, rowMergedEnv e row⟩] (n + 1)
      simp only [hacc, List.singleton_append, runSpecList_cons]
      cases hre : run_script script ver n (rowMergedEnv e row) os exec with
      | error err => rfl
      | ok res =>
        show runRows script ver os exec e rest (results ++ [(ver, n, res.1)], n + 1) = _
        rw [ih (results ++ [(ver, n, res.1)]) (n + 1)]
        cases runSpecList script os exec (expandRows ver e rest ([], n + 1)).1 with
        | error err => rfl
        | ok lst => simp
    · rw [if_neg h, if_neg h]
      exact ih results n

theorem runAlts_bridge (script : List String) (ver : String)
    (os : List (String × String)) (exec : String → Bool)
    (rows : List OverrideRow) (es : List String) :
    ∀ results n, runAlts script ver os exec rows es (results, n) =
      match runSpecList script os exec (expandAlts ver rows es ([], n)).1 with
      | .error err => Except.error err
      | .ok lst => Except.ok (results ++ lst, (expandAlts ver rows es ([], n)).2) := by
  induction es with
  | nil =>
    intro results n
    simp [runAlts, expandAlts, runSpecList]
  | cons e es ih =>
    intro results n
    show (match runRows script ver os exec e rows (results, n) with
      | .error err => Except.error err
      | .ok st2 => runAlts script ver os exec rows es st2) = _
    rw [runRows_bridge]
    have hexp : expandAlts ver rows (e :: es) ([], n) =
        expandAlts ver rows es (expandRows ver e rows ([], n)) := rfl
    have h2 : expandRows ver e rows ([], n) =
        ((expandRows ver e rows ([], n)).1, (expandRows ver e rows ([], n)).2) := rfl
    rw [hexp, h2, expandAlts_acc]
    simp only [runSpecList_append]
    cases h1 : runSpecList script os exec (expandRows ver e rows ([], n)).1 with
    | error err => rfl
    | ok lst1 =>
      show runAlts script ver os exec rows es
        (results ++ lst1, (expandRows ver e rows ([], n)).2) = _
      rw [ih (results ++ lst1) (expandRows ver e rows ([], n)).2]
      cases h3 : runSpecList script os exec
          (expandAlts ver rows es ([], (expandRows ver e rows ([], n)).2)).1 with
      | error err => rfl
      | ok lst2 => simp

theorem runVers_bridge (cfg : TravisConfig) (os : List (String × String))
    (exec : String → Bool) (vs : List String) :
    ∀ results, runVers cfg os exec vs results =
      match runSpecList (translate_script cfg.script) os exec (expandAll cfg vs) with
      | .error e => Except.error e
      | .ok lst => Except.ok (results ++ lst) := by
  induction vs with
  | nil =>
    intro results
    simp [runVers, expandAll, runSpecList]
  | cons v vs ih =>
    intro results
    show (match runAlts (translate_script cfg.script) v os exec
        (emptyRow :: cfg.matrixInclude) (cfg.env.getD [""]) (results, 0) with
      | .error e => Except.error e
      | .ok st => runVers cfg os exec vs st.1) = _
    rw [runAlts_bridge]
    have hall : expandAll cfg (v :: vs) = expandVer cfg v ++ expandAll cfg vs := rfl
    have hev : (expandAlts v (emptyRow :: cfg.matrixInclude) (cfg.env.getD [""]) ([], 0)).1 =
        expandVer cfg v := rfl
    rw [hall, runSpecList_append, hev]
    cases h1 : runSpecList (translate_script cfg.script) os exec (expandVer cfg v) with
    | error err => rfl
    | ok lst1 =>
      show runVers cfg os exec vs (results ++ lst1) = _
      rw [ih (results ++ lst1)]
      cases h3 : runSpecList (translate_script cfg.script) os exec (expandAll cfg vs) with
      | error err => rfl
      | ok lst2 => simp

/-- `main` as selection, expansion, then sequential execution. -/
theorem mainModel_char (cfg : TravisConfig) (args : List String)
    (os : List (String × String)) (exec : String → Bool) :
    mainModel cfg args os exec =
      match resolveVers cfg.rust args with
      | .error a => MainOutcome.usage a
      | .ok vers =>
        match runSpecList (translate_script cfg.script) os exec (expandAll cfg vers) with
        | .error e => MainOutcome.uncaught e
        | .ok results => MainOutcome.done results := by
  unfold mainModel
  cases h : resolveVers cfg.rust args with
  | error a => simp only [h]
  | ok vers =>
    simp only [h]
    rw [runVers_bridge]
    cases runSpecList (translate_script cfg.script) os exec (expandAll cfg vers) with
    | error e => rfl
    | ok results => simp

/-! ## Version Selector lemmas -/

/-- A command-line token the selector's two branches can accept: a known
default version, or `-` followed by a known default version. -/
def recognizedArg (vers : List String) (a : String) : Prop :=
  a ∈ vers ∨ (a.data.head? = some '-' ∧ String.mk a.data.tail ∈ vers)

instance (vers : List String) (a : String) : Decidable (recognizedArg vers a) := by
  unfold recognizedArg
  infer_instance

/-- Stated from the spec (§4.2): the explicit include list — arguments
naming default versions, in order. -/
def specIncludes (defaults args : List String) : List String :=
  args.filter (fun a => a ∈ defaults)

/-- Stated from the spec (§4.2): the exclude set — the remainders of
`-`-prefixed arguments naming default versions (arguments that are
themselves default versions are includes, step 1 coming first). -/
def specExcludes (defaults args : List String) : List String :=
  (args.filter (fun a =>
    a ∉ defaults ∧ a.data.head? = some '-' ∧ String.mk a.data.tail ∈ defaults)).map
    (fun a => String.mk a.data.tail)

/-- Stated from the spec (§4.2): the resolved run list — the include list
(or the full default list when no explicit include), minus the exclude
set, include order preserved. -/
def specResolve (defaults args : List String) : List String :=
  (if specIncludes defaults args = [] then defaults
   else specIncludes defaults args).filter
    (fun v => v ∉ specExcludes defaults args)

theorem selectLoop_error (vers : List String) :
    ∀ (args inc exc : List String), (∃ a ∈ args, ¬recognizedArg vers a) →
      ∃ b ∈ args, selectLoop vers inc exc args = .error b := by
  intro args
  induction args with
  | nil =>
    intro inc exc h
    rcases h with ⟨a, ha, _⟩
    simp at ha
  | cons arg rest ih =>
    intro inc exc h
    by_cases h1 : arg ∈ vers ∧ arg ∉ inc
    · have hrec : recognizedArg vers arg := Or.inl h1.1
      have hex : ∃ a ∈ rest, ¬recognizedArg vers a := by
        rcases h with ⟨a, ha, hna⟩
        rcases List.mem_cons.mp ha with rfl | ha2
        · exact absurd hrec hna
        · exact ⟨a, ha2, hna⟩
      rcases ih (inc ++ [arg]) exc hex with ⟨b, hb, he⟩
      refine ⟨b, List.mem_cons_of_mem _ hb, ?_⟩
      show selectLoop vers inc exc (arg :: rest) = _
      simp only [selectLoop]
      rw [if_pos h1]
      exact he
    · by_cases h2 : arg.data.head? = some '-' ∧ String.mk arg.data.tail ∈ vers
      · have hrec : recognizedArg vers arg := Or.inr h2
        have hex : ∃ a ∈ rest, ¬recognizedArg vers a := by
          rcases h with ⟨a, ha, hna⟩
          rcases List.mem_cons.mp ha with rfl | ha2
          · exact absurd hrec hna
          · exact ⟨a, ha2, hna⟩
        rcases ih inc (if String.mk arg.data.tail ∈ exc then exc
          else exc ++ [String.mk arg.data.tail]) hex with ⟨b, hb, he⟩
        refine ⟨b, List.mem_cons_of_mem _ hb, ?_⟩
        show selectLoop vers inc exc (arg :: rest) = _
        simp only [selectLoop]
        rw [if_neg h1, if_pos h2]
        exact he
      · refine ⟨arg, List.mem_cons_self _ _, ?_⟩
        show selectLoop vers inc exc (arg :: rest) = _
        simp only [selectLoop]
        rw [if_neg h1, if_neg h2]

theorem specExcludes_cons_inl (vers : List String) (arg : String) (rest : List String)
    (h : arg ∈ vers) : specExcludes vers (arg :: rest) = specExcludes vers rest := by
  unfold specExcludes
  rw [List.filter_cons_of_neg]
  simp [h]

theorem selectLoop_char (vers : List String) :
    ∀ (args inc exc : List String),
      (∀ a ∈ args, recognizedArg vers a) →
      (args.filter (fun a => a ∈ vers)).Nodup →
      (∀ a ∈ args, a ∈ vers → a ∉ inc) →
      ∃ excOut, selectLoop vers inc exc args =
          .ok (inc ++ args.filter (fun a => a ∈ vers), excOut) ∧
        ∀ v, v ∈ excOut ↔ v ∈ exc ∨ v ∈ specExcludes vers args := by
  intro args
  induction args with
  | nil =>
    intro inc exc _ _ _
    refine ⟨exc, ?_, ?_⟩
    · show Except.ok (inc, exc) = _
      simp
    · intro v
      simp [specExcludes]
  | cons arg rest ih =>
    intro inc exc hrec hnodup hinc
    by_cases harg : arg ∈ vers
    · have h1 : arg ∈ vers ∧ arg ∉ inc := ⟨harg, hinc arg (List.mem_cons_self _ _) harg⟩
      have hfc : (arg :: rest).filter (fun a => decide (a ∈ vers)) =
          arg :: rest.filter (fun a => decide (a ∈ vers)) :=
        List.filter_cons_of_pos (by simpa using harg)
      have hnd : (rest.filter (fun a => decide (a ∈ vers))).Nodup ∧
          arg ∉ rest.filter (fun a => decide (a ∈ vers)) := by
        rw [hfc] at hnodup
        have := List.nodup_cons.mp hnodup
        exact ⟨this.2, this.1⟩
      have hinc2 : ∀ a ∈ rest, a ∈ vers → a ∉ inc ++ [arg] := by
        intro a ha hav hmem
        rcases List.mem_append.mp hmem with hm | hm
        · exact hinc a (List.mem_cons_of_mem _ ha) hav hm
        · have : a = arg := List.mem_singleton.mp hm
          subst this
          exact hnd.2 (List.mem_filter.mpr ⟨ha, by simpa using hav⟩)
      rcases ih (inc ++ [arg]) exc (fun a ha => hrec a (List.mem_cons_of_mem _ ha))
        hnd.1 hinc2 with ⟨excOut, heq, hiff⟩
      refine ⟨excOut, ?_, ?_⟩
      · show selectLoop vers inc exc (arg :: rest) = _
        simp only [selectLoop]
        rw [if_pos h1, heq, hfc, List.append_assoc]
        rfl
      · intro v
        rw [hiff v, specExcludes_cons_inl vers arg rest harg]
    · have h1 : ¬(arg ∈ vers ∧ arg ∉ inc) := fun hc => harg hc.1
      have h2 : arg.data.head? = some '-' ∧ String.mk arg.data.tail ∈ vers := by
        rcases hrec arg (List.mem_cons_self _ _) with hl | hr
        · exact absurd hl harg
        · exact hr
      have hfc : (arg :: rest).filter (fun a => decide (a ∈ vers)) =
          rest.filter (fun a => decide (a ∈ vers)) :=
        List.filter_cons_of_neg (by simpa using harg)
      have hnd : (rest.filter (fun a => decide (a ∈ vers))).Nodup := by
        rw [hfc] at hnodup
        exact hnodup
      rcases ih inc (if String.mk arg.data.tail ∈ exc then exc
          else exc ++ [String.mk arg.data.tail])
        (fun a ha => hrec a (List.mem_cons_of_mem _ ha)) hnd
        (fun a ha => hinc a (List.mem_cons_of_mem _ ha)) with ⟨excOut, heq, hiff⟩
      refine ⟨excOut, ?_, ?_⟩
      · show selectLoop vers inc exc (arg :: rest) = _
        simp only [selectLoop]
        rw [if_neg h1, if_pos h2, heq, hfc]
      · intro v
        rw [hiff v]
        have hsc : specExcludes vers (arg :: rest) =
            String.mk arg.data.tail :: specExcludes vers rest := by
          unfold specExcludes
          rw [List.filter_cons_of_pos (by simp [harg, h2.1, h2.2])]
          rfl
        rw [hsc]
        by_cases hm : String.mk arg.data.tail ∈ exc
        · rw [if_pos hm]
          constructor
          · intro h
            rcases h with h | h
            · exact Or.inl h
            · exact Or.inr (List.mem_cons_of_mem _ h)
          · intro h
            rcases h with h | h
            · exact Or.inl h
            · rcases List.mem_cons.mp h with rfl | h3
              · exact Or.inl hm
              · exact Or.inr h3
        · rw [if_neg hm]
          constructor
          · intro h
            rcases h with h | h
            · rcases List.mem_append.mp h with h3 | h3
              · exact Or.inl h3
              · exact Or.inr (List.mem_cons.mpr (Or.inl (List.mem_singleton.mp h3)))
            · exact Or.inr (List.mem_cons_of_mem _ h)
          · intro h
            rcases h with h | h
            · exact Or.inl (List.mem_append.mpr (Or.inl h))
            · rcases List.mem_cons.mp h with rfl | h3
              · exact Or.inl (List.mem_append.mpr (Or.inr (List.mem_singleton.mpr rfl)))
              · exact Or.inr h3

/-- The selector agrees with the specification-side description when all
arguments are recognized and no version is requested twice. -/
theorem resolveVers_eq_spec (defaults args : List String)
    (hrec : ∀ a ∈ args, recognizedArg defaults a)
    (hnodup : (args.filter (fun a => a ∈ defaults)).Nodup) :
    resolveVers defaults args = .ok (specResolve defaults args) := by
  rcases selectLoop_char defaults args [] [] hrec hnodup (by simp) with ⟨excOut, heq, hiff⟩
  unfold resolveVers
  rw [heq]
  show Except.ok _ = _
  congr 1
  rw [List.nil_append]
  unfold specResolve
  have hin : specIncludes defaults args = args.filter (fun a => a ∈ defaults) := rfl
  rw [hin]
  apply List.filter_congr
  intro v _
  have hv : v ∈ excOut ↔ v ∈ specExcludes defaults args := by
    rw [hiff v]
    simp
  by_cases h : v ∈ excOut
  · simp [h, hv.mp h]
  · have h2 : v ∉ specExcludes defaults args := fun hc => h (hv.mpr hc)
    simp [h, h2]

/-! ## Run Executor lemmas -/

theorem runSteps_all_ok (cmd_env : List (String × String)) (ver : String)
    (exec : String → Bool) :
    ∀ (script subs : List String), subAll cmd_env script = .ok subs →
      (∀ c ∈ subs, exec (commandLine ver c) = true) →
      runSteps cmd_env ver exec script = .ok (true, subs.map (commandLine ver)) := by
  intro script
  induction script with
  | nil =>
    intro subs h hall
    have hs : subs = [] := by
      simp only [subAll] at h
      exact (Except.ok.inj h).symm
    subst hs
    rfl
  | cons cmd rest ih =>
    intro subs h hall
    cases hs : sub_env cmd_env cmd with
    | error e =>
      simp only [subAll, hs] at h
      exact Except.noConfusion h
    | ok c =>
      cases hr : subAll cmd_env rest with
      | error e =>
        simp only [subAll, hs, hr, Except.map] at h
        exact Except.noConfusion h
      | ok subs2 =>
        simp only [subAll, hs, hr, Except.map] at h
        have hsubs : subs = c :: subs2 := (Except.ok.inj h).symm
        subst hsubs
        show (match sub_env cmd_env cmd with
          | .error e => Except.error e
          | .ok cmdSub =>
            if exec (commandLine ver cmdSub) then
              match runSteps cmd_env ver exec rest with
              | .error e => Except.error e
              | .ok p => Except.ok (p.1, commandLine ver cmdSub :: p.2)
            else Except.ok (false, [commandLine ver cmdSub])) = _
        rw [hs]
        show (if exec (commandLine ver c) then _ else _) = _
        rw [if_pos (hall c (List.mem_cons_self _ _)),
          ih subs2 hr (fun x hx => hall x (List.mem_cons_of_mem _ hx))]
        rfl

theorem runSteps_first_fail (cmd_env : List (String × String)) (ver : String)
    (exec : String → Bool) :
    ∀ (script subs : List String) (cA : List String) (cFail : String) (cB : List String),
      subAll cmd_env script = .ok subs →
      subs.map (commandLine ver) = cA ++ cFail :: cB →
      (∀ c ∈ cA, exec c = true) → exec cFail = false →
      runSteps cmd_env ver exec script = .ok (false, cA ++ [cFail]) := by
  intro script
  induction script with
  | nil =>
    intro subs cA cFail cB h hsplit _ _
    have hs : subs = [] := by
      simp only [subAll] at h
      exact (Except.ok.inj h).symm
    subst hs
    simp at hsplit
  | cons cmd rest ih =>
    intro subs cA cFail cB h hsplit hA hF
    cases hs : sub_env cmd_env cmd with
    | error e =>
      simp only [subAll, hs] at h
      exact Except.noConfusion h
    | ok c =>
      cases hr : subAll cmd_env rest with
      | error e =>
        simp only [subAll, hs, hr, Except.map] at h
        exact Except.noConfusion h
      | ok subs2 =>
        simp only [subAll, hs, hr, Except.map] at h
        have hsubs : subs = c :: subs2 := (Except.ok.inj h).symm
        subst hsubs
        show (match sub_env cmd_env cmd with
          | .error e => Except.error e
          | .ok cmdSub =>
            if exec (commandLine ver cmdSub) then
              match runSteps cmd_env ver exec rest with
              | .error e => Except.error e
              | .ok p => Except.ok (p.1, commandLine ver cmdSub :: p.2)
            else Except.ok (false, [commandLine ver cmdSub])) = _
        rw [hs]
        cases cA with
        | nil =>
          simp only [List.map_cons, List.nil_append] at hsplit
          have hc : commandLine ver c = cFail := (List.cons.injEq _ _ _ _ ▸ hsplit).1
          show (if exec (commandLine ver c) then _ else _) = _
          rw [hc, if_neg (by rw [hF]; exact Bool.false_ne_true), List.nil_append]
        | cons a cA2 =>
          simp only [List.map_cons, List.cons_append] at hsplit
          have h1 : commandLine ver c = a := (List.cons.injEq _ _ _ _ ▸ hsplit).1
          have h2 : subs2.map (commandLine ver) = cA2 ++ cFail :: cB :=
            (List.cons.injEq _ _ _ _ ▸ hsplit).2
          show (if exec (commandLine ver c) then _ else _) = _
          rw [if_pos (by rw [h1]; exact hA a (List.mem_cons_self _ _)),
            ih subs2 cA2 cFail cB hr h2 (fun x hx => hA x (List.mem_cons_of_mem _ hx)) hF]
          show Except.ok (false, commandLine ver c :: (cA2 ++ [cFail])) = _
          rw [h1, List.cons_append]

theorem runSteps_true_char (cmd_env : List (String × String)) (ver : String)
    (exec : String → Bool) :
    ∀ (script subs l : List String), subAll cmd_env script = .ok subs →
      runSteps cmd_env ver exec script = .ok (true, l) →
      l = subs.map (commandLine ver) ∧ ∀ c ∈ l, exec c = true := by
  intro script
  induction script with
  | nil =>
    intro subs l h hrun
    have hs : subs = [] := by
      simp only [subAll] at h
      exact (Except.ok.inj h).symm
    have hl : l = [] := by
      simp only [runSteps] at hrun
      exact ((Prod.mk.injEq _ _ _ _ ▸ Except.ok.inj hrun).2).symm
    subst hs hl
    exact ⟨rfl, by simp⟩
  | cons cmd rest ih =>
    intro subs l h hrun
    cases hs : sub_env cmd_env cmd with
    | error e =>
      simp only [subAll, hs] at h
      exact Except.noConfusion h
    | ok c =>
      cases hr : subAll cmd_env rest with
      | error e =>
        simp only [subAll, hs, hr, Except.map] at h
        exact Except.noConfusion h
      | ok subs2 =>
        simp only [subAll, hs, hr, Except.map] at h
        have hsubs : subs = c :: subs2 := (Except.ok.inj h).symm
        subst hsubs
        have hrun2 : (match sub_env cmd_env cmd with
          | .error e => Except.error e
          | .ok cmdSub =>
            if exec (commandLine ver cmdSub) then
              match runSteps cmd_env ver exec rest with
              | .error e => Except.error e
              | .ok p => Except.ok (p.1, commandLine ver cmdSub :: p.2)
            else Except.ok (false, [commandLine ver cmdSub])) =
            Except.ok (true, l) := hrun
        rw [hs] at hrun2
        have hrun3 : (if exec (commandLine ver c) then
              match runSteps cmd_env ver exec rest with
              | .error e => Except.error e
              | .ok p => Except.ok (p.1, commandLine ver c :: p.2)
            else Except.ok (false, [commandLine ver c])) = Except.ok (true, l) := hrun2
        by_cases he : exec (commandLine ver c) = true
        · rw [if_pos he] at hrun3
          cases hrest : runSteps cmd_env ver exec rest with
          | error e =>
            rw [hrest] at hrun3
            exact Except.noConfusion hrun3
          | ok p =>
            rw [hrest] at hrun3
            have hp := Except.ok.inj hrun3
            have hp1 : p.1 = true := (Prod.mk.injEq _ _ _ _ ▸ hp).1
            have hp2 : commandLine ver c :: p.2 = l := (Prod.mk.injEq _ _ _ _ ▸ hp).2
            have hre : runSteps cmd_env ver exec rest = .ok (true, p.2) := by
              rw [hrest, ← hp1]
            rcases ih subs2 p.2 hr hre with ⟨ha, hb⟩
            refine ⟨?_, ?_⟩
            · rw [← hp2, ha]
              rfl
            · intro x hx
              rw [← hp2] at hx
              rcases List.mem_cons.mp hx with rfl | hx2
              · exact he
              · exact hb x hx2
        · rw [if_neg he] at hrun3
          have := (Prod.mk.injEq _ _ _ _ ▸ Except.ok.inj hrun3).1
          exact absurd this Bool.false_ne_true

/-- A substitution failure on the first step escapes `run_script` before
that step is executed. -/
theorem run_script_sub_error (ver : String) (i : Nat)
    (env os : List (String × String)) (exec : String → Bool)
    (cmd : String) (rest : List String) (n : String)
    (h : sub_env (effectiveEnv ver i env os) cmd = .error n) :
    run_script (cmd :: rest) ver i env os exec = .error n := by
  unfold run_script
  show (match sub_env (effectiveEnv ver i env os) cmd with
    | .error e => Except.error e
    | .ok cmdSub =>
      if exec (commandLine ver cmdSub) then
        match runSteps (effectiveEnv ver i env os) ver exec rest with
        | .error e => Except.error e
        | .ok p => Except.ok (p.1, commandLine ver cmdSub :: p.2)
      else Except.ok (false, [commandLine ver cmdSub])) = _
  rw [h]

/-- A failing run aborts nothing beyond itself: `runSpecList` continues
with the remaining specifications whatever the recorded success flag. -/
theorem runSpecList_continues (script : List String) (os : List (String × String))
    (exec : String → Bool) (spec : RunSpec) (more : List RunSpec)
    (res : Bool × List String)
    (h : run_script script spec.version spec.seqId spec.env os exec = .ok res) :
    runSpecList script os exec (spec :: more) =
      (runSpecList script os exec more).map
        (fun lst => (spec.version, spec.seqId, res.1) :: lst) := by
  rw [runSpecList_cons, h]
  cases runSpecList script os exec more <;> rfl

/-- An erroring run aborts the whole remaining matrix. -/
theorem runSpecList_aborts (script : List String) (os : List (String × String))
    (exec : String → Bool) (spec : RunSpec) (more : List RunSpec) (n : String)
    (h : run_script script spec.version spec.seqId spec.env os exec = .error n) :
    runSpecList script os exec (spec :: more) = .error n := by
  rw [runSpecList_cons, h]

/-! ## C7: well-formed environment strings and the serializer

The spec's grammar (§4.1): whitespace-separated tokens `NAME=value`,
`NAME` matching `[A-Za-z0-9_]+`, `value` either a double-quoted, nonempty
run of non-quote characters (ending the token) or an unquoted run of
non-whitespace characters; a value beginning with `"` is the quoted form,
so an unquoted value does not begin with `"`.  `gTokens` parses exactly
the strings made of such tokens and returns `none` on any malformed
token — "no malformed tokens" in the round-trip claim is
`(gTokens …).isSome`. -/

/-- The grammar reference parser, with fuel. -/
def gTokensGo : Nat → List Char → Option (List (String × String))
  | _, [] => some []
  | 0, _ :: _ => none
  | fuel + 1, c :: cs =>
    if isSpaceChar c then gTokensGo fuel cs
    else
      if (c :: cs).takeWhile isWordChar = [] then none
      else
        if ((c :: cs).dropWhile isWordChar).head? = some '=' then
          if (((c :: cs).dropWhile isWordChar).tail).head? = some '"' then
            if (((c :: cs).dropWhile isWordChar).tail).tail.takeWhile (fun x => x != '"') ≠ [] ∧
                (((c :: cs).dropWhile isWordChar).tail).tail.dropWhile (fun x => x != '"') ≠ [] ∧
                (((((c :: cs).dropWhile isWordChar).tail).tail.dropWhile
                  (fun x => x != '"')).tail = [] ∨
                 ((((c :: cs).dropWhile isWordChar).tail).tail.dropWhile
                  (fun x => x != '"')).tail.head?.map isSpaceChar = some true) then
              (gTokensGo fuel (((((c :: cs).dropWhile isWordChar).tail).tail.dropWhile
                  (fun x => x != '"')).tail)).map
                (fun toks => (String.mk ((c :: cs).takeWhile isWordChar),
                  String.mk ((((c :: cs).dropWhile isWordChar).tail).tail.takeWhile
                    (fun x => x != '"'))) :: toks)
            else none
          else
            (gTokensGo fuel ((((c :: cs).dropWhile isWordChar).tail).dropWhile
                (fun x => !isSpaceChar x))).map
              (fun toks => (String.mk ((c :: cs).takeWhile isWordChar),
                String.mk ((((c :: cs).dropWhile isWordChar).tail).takeWhile
                  (fun x => !isSpaceChar x))) :: toks)
        else none

/-- The grammar parser with adequate fuel. -/
def gTokens (cs : List Char) : Option (List (String × String)) :=
  gTokensGo cs.length cs

/-- "No malformed tokens": the stripped string is a whitespace-separated
sequence of grammar tokens. -/
def WellFormedEnvStr (s : String) : Prop :=
  (gTokens (pyStrip s.data)).isSome = true

instance (s : String) : Decidable (WellFormedEnvStr s) := by
  unfold WellFormedEnvStr
  infer_instance

/-- Double-quote a value containing whitespace, as the claim's
serialization prescribes. -/
def encodeVal (v : String) : List Char :=
  if v.data.any isSpaceChar then '"' :: (v.data ++ ['"']) else v.data

/-- One serialized `KEY=value` token. -/
def encodeTok (p : String × String) : List Char :=
  p.1.data ++ '=' :: encodeVal p.2

/-- The whitespace-separated serialization of a map. -/
def serializeChars : List (String × String) → List Char
  | [] => []
  | p :: rest =>
    encodeTok p ++ (match rest with | [] => [] | _ :: _ => ' ' :: serializeChars rest)

/-- Re-serialize a parsed map as whitespace-separated `KEY=value` tokens,
double-quoting each value that contains whitespace. -/
def serialize_env (m : List (String × String)) : String :=
  String.mk (serializeChars m)

/-- A key the parse can produce: nonempty, all word characters. -/
def GoodKey (k : String) : Prop := k.data ≠ [] ∧ ∀ c ∈ k.data, isWordChar c = true

/-- A value the parse of a well-formed string can produce: it does not
begin with `"`, and if it contains whitespace (quoted origin) it is
nonempty and contains no `"` at all. -/
def GoodVal (v : String) : Prop :=
  v.data.head? ≠ some '"' ∧
    (v.data.any isSpaceChar = true → v.data ≠ [] ∧ '"' ∉ v.data)

def GoodPair (p : String × String) : Prop := GoodKey p.1 ∧ GoodVal p.2

example : gTokens "A=1 B=\"x y\"".data = some [("A", "1"), ("B", "x y")] := by decide
example : gTokens "A=".data = some [("A", "")] := by decide
example : gTokens "A=\"x".data = none := by decide
example : gTokens "A=\"\"".data = none := by decide
example : gTokens "A".data = none := by decide
example : gTokens "  A=1  ".data = some [("A", "1")] := by decide
example : gTokens "A=B=C".data = some [("A", "B=C")] := by decide
example : serialize_env [("A", "1"), ("B", "x y")] = "A=1 B=\"x y\"" := by decide

theorem space_not_word (c : Char) (h : isSpaceChar c = true) : isWordChar c = false := by
  unfold isSpaceChar at h
  simp only [Bool.or_eq_true, decide_eq_true_eq] at h
  rcases h with ((((h | h) | h) | h) | h) | h <;> subst h <;> decide

theorem word_not_space (c : Char) (h : isWordChar c = true) : isSpaceChar c = false := by
  cases hs : isSpaceChar c with
  | false => rfl
  | true => rw [space_not_word c hs] at h; exact absurd h Bool.false_ne_true

theorem takeWhile_cons_ne_nil_iff (p : Char → Bool) (c : Char) (cs : List Char) :
    (c :: cs).takeWhile p ≠ [] ↔ p c = true := by
  rw [List.takeWhile_cons p c cs]
  by_cases h : p c = true
  · simp [h]
  · simp [h]

theorem matchVal_quoted (afterEq : List Char)
    (hq : afterEq.head? = some '"')
    (h1 : afterEq.tail.takeWhile (fun x => x != '"') ≠ [])
    (h2 : afterEq.tail.dropWhile (fun x => x != '"') ≠ []) :
    matchVal afterEq = (afterEq.tail.takeWhile (fun x => x != '"'),
      (afterEq.tail.dropWhile (fun x => x != '"')).tail) := by
  unfold matchVal
  rw [if_pos ⟨hq, h1, h2⟩]

theorem matchVal_unquoted (afterEq : List Char) (hq : afterEq.head? ≠ some '"') :
    matchVal afterEq = (afterEq.takeWhile (fun x => !isSpaceChar x),
      afterEq.dropWhile (fun x => !isSpaceChar x)) := by
  unfold matchVal
  rw [if_neg (fun hc => hq hc.1)]

theorem gTokensGo_cons_space (fuel : Nat) (c : Char) (cs : List Char)
    (h : isSpaceChar c = true) :
    gTokensGo (fuel + 1) (c :: cs) = gTokensGo fuel cs := by
  simp only [gTokensGo]
  rw [if_pos h]

theorem gTokensGo_cons_token (fuel : Nat) (c : Char) (cs : List Char)
    (hsp : isSpaceChar c = false)
    (hname : (c :: cs).takeWhile isWordChar ≠ [])
    (he : ((c :: cs).dropWhile isWordChar).head? = some '=') :
    gTokensGo (fuel + 1) (c :: cs) =
      (if (((c :: cs).dropWhile isWordChar).tail).head? = some '"' then
        if (((c :: cs).dropWhile isWordChar).tail).tail.takeWhile (fun x => x != '"') ≠ [] ∧
            (((c :: cs).dropWhile isWordChar).tail).tail.dropWhile (fun x => x != '"') ≠ [] ∧
            (((((c :: cs).dropWhile isWordChar).tail).tail.dropWhile
              (fun x => x != '"')).tail = [] ∨
             ((((c :: cs).dropWhile isWordChar).tail).tail.dropWhile
              (fun x => x != '"')).tail.head?.map isSpaceChar = some true) then
          (gTokensGo fuel (((((c :: cs).dropWhile isWordChar).tail).tail.dropWhile
              (fun x => x != '"')).tail)).map
            (fun toks => (String.mk ((c :: cs).takeWhile isWordChar),
              String.mk ((((c :: cs).dropWhile isWordChar).tail).tail.takeWhile
                (fun x => x != '"'))) :: toks)
        else none
      else
        (gTokensGo fuel ((((c :: cs).dropWhile isWordChar).tail).dropWhile
            (fun x => !isSpaceChar x))).map
          (fun toks => (String.mk ((c :: cs).takeWhile isWordChar),
            String.mk ((((c :: cs).dropWhile isWordChar).tail).takeWhile
              (fun x => !isSpaceChar x))) :: toks)) := by
  simp only [gTokensGo]
  rw [if_neg (by rw [hsp]; exact Bool.false_ne_true), if_neg hname, if_pos he]

theorem gTokensGo_cons_none (fuel : Nat) (c : Char) (cs : List Char)
    (hsp : isSpaceChar c = false)
    (h : (c :: cs).takeWhile isWordChar = [] ∨
      ((c :: cs).dropWhile isWordChar).head? ≠ some '=') :
    gTokensGo (fuel + 1) (c :: cs) = none := by
  simp only [gTokensGo]
  rw [if_neg (by rw [hsp]; exact Bool.false_ne_true)]
  rcases h with h | h
  · rw [if_pos h]
  · by_cases hn : (c :: cs).takeWhile isWordChar = []
    · rw [if_pos hn]
    · rw [if_neg hn, if_neg h]

theorem findMatchesGo_cons_skip (fuel : Nat) (c : Char) (cs : List Char)
    (h : isWordChar c = false) :
    findMatchesGo (fuel + 1) (c :: cs) = findMatchesGo fuel cs := by
  simp only [findMatchesGo]
  rw [if_neg (by rw [h]; exact Bool.false_ne_true)]

theorem findMatchesGo_cons_found (fuel : Nat) (c : Char) (cs : List Char)
    (hw : isWordChar c = true)
    (he : ((c :: cs).dropWhile isWordChar).head? = some '=') :
    findMatchesGo (fuel + 1) (c :: cs) =
      (String.mk ((c :: cs).takeWhile isWordChar),
       String.mk (matchVal (((c :: cs).dropWhile isWordChar).tail)).1)
        :: findMatchesGo fuel (matchVal (((c :: cs).dropWhile isWordChar).tail)).2 := by
  simp only [findMatchesGo]
  rw [if_pos hw, if_pos he]

/-- On a well-formed string the code's scan returns exactly the grammar's
token list. -/
theorem gTokens_agree_go (fuel : Nat) : ∀ (cs : List Char) (toks : List (String × String)),
    cs.length ≤ fuel → gTokensGo fuel cs = some toks → findMatchesGo fuel cs = toks := by
  induction fuel with
  | zero =>
    intro cs toks h1 h2
    cases cs with
    | nil =>
      have h3 : toks = [] := (Option.some.inj h2).symm
      subst h3
      rfl
    | cons c cs => simp at h1
  | succ fuel ih =>
    intro cs toks h1 h2
    cases cs with
    | nil =>
      have h3 : toks = [] := (Option.some.inj h2).symm
      subst h3
      rfl
    | cons c cs =>
      simp only [List.length_cons] at h1
      by_cases hsp : isSpaceChar c = true
      · rw [gTokensGo_cons_space fuel c cs hsp] at h2
        rw [findMatchesGo_cons_skip fuel c cs (space_not_word c hsp)]
        exact ih cs toks (by omega) h2
      · have hsp2 : isSpaceChar c = false := by
          cases hx : isSpaceChar c
          · rfl
          · exact absurd hx hsp
        by_cases hname : (c :: cs).takeWhile isWordChar = []
        · rw [gTokensGo_cons_none fuel c cs hsp2 (Or.inl hname)] at h2
          exact Option.noConfusion h2
        · have hw : isWordChar c = true := (takeWhile_cons_ne_nil_iff isWordChar c cs).mp hname
          by_cases he : ((c :: cs).dropWhile isWordChar).head? = some '='
          · rw [gTokensGo_cons_token fuel c cs hsp2 hname he] at h2
            have hdw : ((c :: cs).dropWhile isWordChar).length ≤ cs.length := by
              rw [dropWhile_cons_word c cs hw]
              exact length_dropWhile_le isWordChar cs
            by_cases hq : (((c :: cs).dropWhile isWordChar).tail).head? = some '"'
            · rw [if_pos hq] at h2
              by_cases hcond : (((c :: cs).dropWhile isWordChar).tail).tail.takeWhile
                    (fun x => x != '"') ≠ [] ∧
                  (((c :: cs).dropWhile isWordChar).tail).tail.dropWhile
                    (fun x => x != '"') ≠ [] ∧
                  (((((c :: cs).dropWhile isWordChar).tail).tail.dropWhile
                    (fun x => x != '"')).tail = [] ∨
                   ((((c :: cs).dropWhile isWordChar).tail).tail.dropWhile
                    (fun x => x != '"')).tail.head?.map isSpaceChar = some true)
              · rw [if_pos hcond] at h2
                cases hrec : gTokensGo fuel (((((c :: cs).dropWhile isWordChar).tail).tail.dropWhile
                    (fun x => x != '"')).tail) with
                | none => rw [hrec] at h2; exact Option.noConfusion h2
                | some toks2 =>
                  rw [hrec] at h2
                  have h3 : toks = (String.mk ((c :: cs).takeWhile isWordChar),
                      String.mk ((((c :: cs).dropWhile isWordChar).tail).tail.takeWhile
                        (fun x => x != '"'))) :: toks2 := (Option.some.inj h2).symm
                  subst h3
                  rw [findMatchesGo_cons_found fuel c cs hw he]
                  rw [matchVal_quoted (((c :: cs).dropWhile isWordChar).tail) hq
                    hcond.1 hcond.2.1]
                  have hlen : (((((c :: cs).dropWhile isWordChar).tail).tail.dropWhile
                      (fun x => x != '"')).tail).length ≤ fuel := by
                    have a1 := length_tail_le ((c :: cs).dropWhile isWordChar)
                    have a2 := length_tail_le (((c :: cs).dropWhile isWordChar).tail)
                    have a3 := length_dropWhile_le (fun x => x != '"')
                      ((((c :: cs).dropWhile isWordChar).tail).tail)
                    have a4 := length_tail_le ((((c :: cs).dropWhile isWordChar).tail).tail.dropWhile
                      (fun x => x != '"'))
                    omega
                  rw [ih _ toks2 hlen hrec]
              · rw [if_neg hcond] at h2
                exact Option.noConfusion h2
            · rw [if_neg hq] at h2
              cases hrec : gTokensGo fuel ((((c :: cs).dropWhile isWordChar).tail).dropWhile
                  (fun x => !isSpaceChar x)) with
              | none => rw [hrec] at h2; exact Option.noConfusion h2
              | some toks2 =>
                rw [hrec] at h2
                have h3 : toks = (String.mk ((c :: cs).takeWhile isWordChar),
                    String.mk ((((c :: cs).dropWhile isWordChar).tail).takeWhile
                      (fun x => !isSpaceChar x))) :: toks2 := (Option.some.inj h2).symm
                subst h3
                rw [findMatchesGo_cons_found fuel c cs hw he]
                rw [matchVal_unquoted (((c :: cs).dropWhile isWordChar).tail) hq]
                have hlen : (((((c :: cs).dropWhile isWordChar).tail)).dropWhile
                    (fun x => !isSpaceChar x)).length ≤ fuel := by
                  have a1 := length_tail_le ((c :: cs).dropWhile isWordChar)
                  have a2 := length_dropWhile_le (fun x => !isSpaceChar x)
                    (((c :: cs).dropWhile isWordChar).tail)
                  omega
                rw [ih _ toks2 hlen hrec]
          · rw [gTokensGo_cons_none fuel c cs hsp2 (Or.inr he)] at h2
            exact Option.noConfusion h2

/-- On a well-formed character list the scan equals the grammar parse. -/
theorem findMatches_of_gTokens (cs : List Char) (toks : List (String × String))
    (h : gTokens cs = some toks) : findMatches cs = toks :=
  gTokens_agree_go cs.length cs toks le_rfl h

theorem gTokensGo_stable (f1 : Nat) : ∀ (f2 : Nat) (cs : List Char),
    cs.length ≤ f1 → cs.length ≤ f2 → gTokensGo f1 cs = gTokensGo f2 cs := by
  induction f1 with
  | zero =>
    intro f2 cs h1 _
    cases cs with
    | nil => cases f2 <;> rfl
    | cons c cs => simp at h1
  | succ f1 ih =>
    intro f2 cs h1 h2
    cases cs with
    | nil => cases f2 <;> rfl
    | cons c cs =>
      cases f2 with
      | zero => simp at h2
      | succ f2 =>
        simp only [List.length_cons] at h1 h2
        by_cases hsp : isSpaceChar c = true
        · rw [gTokensGo_cons_space f1 c cs hsp, gTokensGo_cons_space f2 c cs hsp]
          exact ih f2 cs (by omega) (by omega)
        · have hsp2 : isSpaceChar c = false := by
            cases hx : isSpaceChar c
            · rfl
            · exact absurd hx hsp
          by_cases hname : (c :: cs).takeWhile isWordChar = []
          · rw [gTokensGo_cons_none f1 c cs hsp2 (Or.inl hname),
              gTokensGo_cons_none f2 c cs hsp2 (Or.inl hname)]
          · by_cases he : ((c :: cs).dropWhile isWordChar).head? = some '='
            · rw [gTokensGo_cons_token f1 c cs hsp2 hname he,
                gTokensGo_cons_token f2 c cs hsp2 hname he]
              have hw : isWordChar c = true :=
                (takeWhile_cons_ne_nil_iff isWordChar c cs).mp hname
              have hdw : ((c :: cs).dropWhile isWordChar).length ≤ cs.length := by
                rw [dropWhile_cons_word c cs hw]
                exact length_dropWhile_le isWordChar cs
              have a1 := length_tail_le ((c :: cs).dropWhile isWordChar)
              by_cases hq : (((c :: cs).dropWhile isWordChar).tail).head? = some '"'
              · rw [if_pos hq, if_pos hq]
                split
                · have a2 := length_tail_le (((c :: cs).dropWhile isWordChar).tail)
                  have a3 := length_dropWhile_le (fun x => x != '"')
                    ((((c :: cs).dropWhile isWordChar).tail).tail)
                  have a4 := length_tail_le ((((c :: cs).dropWhile isWordChar).tail).tail.dropWhile
                    (fun x => x != '"'))
                  rw [ih f2 _ (by omega) (by omega)]
                · rfl
              · rw [if_neg hq, if_neg hq]
                have a2 := length_dropWhile_le (fun x => !isSpaceChar x)
                  (((c :: cs).dropWhile isWordChar).tail)
                rw [ih f2 _ (by omega) (by omega)]
            · rw [gTokensGo_cons_none f1 c cs hsp2 (Or.inr he),
                gTokensGo_cons_none f2 c cs hsp2 (Or.inr he)]

theorem gTokensGo_eq (fuel : Nat) (cs : List Char) (h : cs.length ≤ fuel) :
    gTokensGo fuel cs = gTokens cs :=
  gTokensGo_stable fuel cs.length cs h le_rfl

theorem gTokens_cons_space (c : Char) (cs : List Char) (h : isSpaceChar c = true) :
    gTokens (c :: cs) = gTokens cs := by
  show gTokensGo (cs.length + 1) (c :: cs) = _
  rw [gTokensGo_cons_space cs.length c cs h]
  exact gTokensGo_eq cs.length cs le_rfl

theorem head?_takeWhile_some (p : Char → Bool) (l : List Char) (a : Char)
    (h : (l.takeWhile p).head? = some a) : l.head? = some a := by
  cases l with
  | nil => simp at h
  | cons c cs =>
    rw [List.takeWhile_cons p c cs] at h
    by_cases hp : p c = true
    · rw [if_pos hp] at h
      simp only [List.head?_cons] at h ⊢
      exact h
    · rw [if_neg hp] at h
      simp at h

/-- Every pair produced by the grammar parser has a good key and a good
value. -/
theorem gTokens_pairs_good_go (fuel : Nat) : ∀ (cs : List Char)
    (toks : List (String × String)), cs.length ≤ fuel → gTokensGo fuel cs = some toks →
    ∀ p ∈ toks, GoodPair p := by
  induction fuel with
  | zero =>
    intro cs toks h1 h2 p hp
    cases cs with
    | nil =>
      have h3 : toks = [] := (Option.some.inj h2).symm
      subst h3
      simp at hp
    | cons c cs => simp at h1
  | succ fuel ih =>
    intro cs toks h1 h2 p hp
    cases cs with
    | nil =>
      have h3 : toks = [] := (Option.some.inj h2).symm
      subst h3
      simp at hp
    | cons c cs =>
      simp only [List.length_cons] at h1
      by_cases hsp : isSpaceChar c = true
      · rw [gTokensGo_cons_space fuel c cs hsp] at h2
        exact ih cs toks (by omega) h2 p hp
      · have hsp2 : isSpaceChar c = false := by
          cases hx : isSpaceChar c
          · rfl
          · exact absurd hx hsp
        by_cases hname : (c :: cs).takeWhile isWordChar = []
        · rw [gTokensGo_cons_none fuel c cs hsp2 (Or.inl hname)] at h2
          exact Option.noConfusion h2
        · have hw : isWordChar c = true := (takeWhile_cons_ne_nil_iff isWordChar c cs).mp hname
          have hkey : GoodKey (String.mk ((c :: cs).takeWhile isWordChar)) := by
            refine ⟨hname, ?_⟩
            intro x hx
            exact List.mem_takeWhile_imp hx
          by_cases he : ((c :: cs).dropWhile isWordChar).head? = some '='
          · rw [gTokensGo_cons_token fuel c cs hsp2 hname he] at h2
            have hdw : ((c :: cs).dropWhile isWordChar).length ≤ cs.length := by
              rw [dropWhile_cons_word c cs hw]
              exact length_dropWhile_le isWordChar cs
            have a1 := length_tail_le ((c :: cs).dropWhile isWordChar)
            by_cases hq : (((c :: cs).dropWhile isWordChar).tail).head? = some '"'
            · rw [if_pos hq] at h2
              by_cases hcond : (((c :: cs).dropWhile isWordChar).tail).tail.takeWhile
                    (fun x => x != '"') ≠ [] ∧
                  (((c :: cs).dropWhile isWordChar).tail).tail.dropWhile
                    (fun x => x != '"') ≠ [] ∧
                  (((((c :: cs).dropWhile isWordChar).tail).tail.dropWhile
                    (fun x => x != '"')).tail = [] ∨
                   ((((c :: cs).dropWhile isWordChar).tail).tail.dropWhile
                    (fun x => x != '"')).tail.head?.map isSpaceChar = some true)
              · rw [if_pos hcond] at h2
                cases hrec : gTokensGo fuel (((((c :: cs).dropWhile isWordChar).tail).tail.dropWhile
                    (fun x => x != '"')).tail) with
                | none => rw [hrec] at h2; exact Option.noConfusion h2
                | some toks2 =>
                  rw [hrec] at h2
                  have h3 : toks = (String.mk ((c :: cs).takeWhile isWordChar),
                      String.mk ((((c :: cs).dropWhile isWordChar).tail).tail.takeWhile
                        (fun x => x != '"'))) :: toks2 := (Option.some.inj h2).symm
                  subst h3
                  rcases List.mem_cons.mp hp with rfl | hp2
                  · refine ⟨hkey, ?_, ?_⟩
                    · intro hh
                      have hc2 : ((((c :: cs).dropWhile isWordChar).tail).tail.takeWhile
                          (fun x => x != '"')).head? = some '"' := hh
                      cases hcc : (((c :: cs).dropWhile isWordChar).tail).tail.takeWhile
                          (fun x => x != '"') with
                      | nil => rw [hcc] at hc2; simp at hc2
                      | cons a as =>
                        rw [hcc] at hc2
                        simp only [List.head?_cons, Option.some.injEq] at hc2
                        have ham : a ∈ (((c :: cs).dropWhile isWordChar).tail).tail.takeWhile
                            (fun x => x != '"') := by
                          rw [hcc]
                          exact List.mem_cons_self _ _
                        have hpr := List.mem_takeWhile_imp ham
                        rw [hc2] at hpr
                        simp at hpr
                    · intro _
                      refine ⟨hcond.1, ?_⟩
                      intro hm
                      have := List.mem_takeWhile_imp hm
                      simp at this
                  · have a2 := length_tail_le (((c :: cs).dropWhile isWordChar).tail)
                    have a3 := length_dropWhile_le (fun x => x != '"')
                      ((((c :: cs).dropWhile isWordChar).tail).tail)
                    have a4 := length_tail_le ((((c :: cs).dropWhile isWordChar).tail).tail.dropWhile
                      (fun x => x != '"'))
                    exact ih _ toks2 (by omega) hrec p hp2
              · rw [if_neg hcond] at h2
                exact Option.noConfusion h2
            · rw [if_neg hq] at h2
              cases hrec : gTokensGo fuel ((((c :: cs).dropWhile isWordChar).tail).dropWhile
                  (fun x => !isSpaceChar x)) with
              | none => rw [hrec] at h2; exact Option.noConfusion h2
              | some toks2 =>
                rw [hrec] at h2
                have h3 : toks = (String.mk ((c :: cs).takeWhile isWordChar),
                    String.mk ((((c :: cs).dropWhile isWordChar).tail).takeWhile
                      (fun x => !isSpaceChar x))) :: toks2 := (Option.some.inj h2).symm
                subst h3
                rcases List.mem_cons.mp hp with rfl | hp2
                · refine ⟨hkey, ?_, ?_⟩
                  · intro hh
                    exact hq (head?_takeWhile_some _ _ _ hh)
                  · intro hany
                    rcases List.any_eq_true.mp hany with ⟨x, hx, hxs⟩
                    have := List.mem_takeWhile_imp hx
                    simp only [Bool.not_eq_true'] at this
                    rw [this] at hxs
                    exact absurd hxs Bool.false_ne_true
                · have a2 := length_dropWhile_le (fun x => !isSpaceChar x)
                    (((c :: cs).dropWhile isWordChar).tail)
                  exact ih _ toks2 (by omega) hrec p hp2
          · rw [gTokensGo_cons_none fuel c cs hsp2 (Or.inr he)] at h2
            exact Option.noConfusion h2

theorem gTokens_pairs_good (cs : List Char) (toks : List (String × String))
    (h : gTokens cs = some toks) : ∀ p ∈ toks, GoodPair p :=
  gTokens_pairs_good_go cs.length cs toks le_rfl h

/-- Consuming one serialized token: the grammar parser reads `KEY=value`
back off the front and continues behind the separator. -/
theorem gTokens_encodeTok (k v : String) (tail : List Char) (toks : List (String × String))
    (hk : GoodKey k) (hv : GoodVal v)
    (htail : tail = [] ∨ tail.head? = some ' ')
    (hrec : gTokens tail = some toks) :
    gTokens (encodeTok (k, v) ++ tail) = some ((k, v) :: toks) := by
  have hL : encodeTok (k, v) ++ tail = k.data ++ '=' :: (encodeVal v ++ tail) := by
    unfold encodeTok
    simp
  rw [hL]
  rcases hk with ⟨hkne, hkword⟩
  have hpost : (('=' :: (encodeVal v ++ tail)).head?.map isWordChar) ≠ some true := by
    show Option.map isWordChar (some '=') ≠ some true
    decide
  have hsplit := name_run_split k.data ('=' :: (encodeVal v ++ tail)) hkword hpost
  cases hkd : k.data with
  | nil => exact absurd hkd hkne
  | cons c k2 =>
    rw [hkd] at hsplit hkword
    have hw : isWordChar c = true := hkword c (List.mem_cons_self _ _)
    have hsp2 : isSpaceChar c = false := word_not_space c hw
    rw [List.cons_append]
    show gTokensGo ((k2 ++ '=' :: (encodeVal v ++ tail)).length + 1)
      (c :: (k2 ++ '=' :: (encodeVal v ++ tail))) = _
    rw [List.cons_append] at hsplit
    have hname : (c :: (k2 ++ '=' :: (encodeVal v ++ tail))).takeWhile isWordChar ≠ [] := by
      rw [hsplit.1]
      simp
    have he : ((c :: (k2 ++ '=' :: (encodeVal v ++ tail))).dropWhile isWordChar).head? =
        some '=' := by
      rw [hsplit.2]
      rfl
    rw [gTokensGo_cons_token _ c _ hsp2 hname he, hsplit.1, hsplit.2]
    have htl : ('=' :: (encodeVal v ++ tail)).tail = encodeVal v ++ tail := rfl
    rw [htl]
    have hmk : String.mk (c :: k2) = k := by rw [← hkd]
    by_cases hs : v.data.any isSpaceChar = true
    · have henc : encodeVal v = '"' :: (v.data ++ ['"']) := by
        unfold encodeVal
        rw [if_pos hs]
      rcases hv.2 hs with ⟨hvne, hvnq⟩
      have hR : encodeVal v ++ tail = '"' :: (v.data ++ '"' :: tail) := by
        rw [henc]
        simp
      rw [hR]
      have hq0 : ('"' :: (v.data ++ '"' :: tail)).head? = some '"' := rfl
      rw [if_pos hq0]
      have hvq : ∀ x ∈ v.data, (x != '"') = true := by
        intro x hx
        have : x ≠ '"' := fun hxe => hvnq (hxe ▸ hx)
        simpa using this
      have hqpost : (('"' :: tail).head?.map (fun x => x != '"')) ≠ some true := by
        show Option.map (fun x => x != '"') (some '"') ≠ some true
        decide
      have htw : (('"' :: (v.data ++ '"' :: tail)).tail).takeWhile (fun x => x != '"') =
          v.data := by
        show ((v.data ++ '"' :: tail)).takeWhile (fun x => x != '"') = v.data
        rw [takeWhile_append_all _ _ _ hvq, takeWhile_head_not _ _ hqpost, List.append_nil]
      have hdw : (('"' :: (v.data ++ '"' :: tail)).tail).dropWhile (fun x => x != '"') =
          '"' :: tail := by
        show ((v.data ++ '"' :: tail)).dropWhile (fun x => x != '"') = '"' :: tail
        rw [dropWhile_append_all _ _ _ hvq, dropWhile_head_not _ _ hqpost]
      rw [htw, hdw]
      have hbound : (('"' :: tail).tail = [] ∨
          ('"' :: tail).tail.head?.map isSpaceChar = some true) := by
        show (tail = [] ∨ tail.head?.map isSpaceChar = some true)
        rcases htail with h | h
        · exact Or.inl h
        · right
          rw [h]
          rfl
      rw [if_pos ⟨hvne, by simp, hbound⟩]
      have hlen2 : tail.length ≤ (k2 ++ '=' :: '"' :: (v.data ++ '"' :: tail)).length := by
        simp only [List.length_append, List.length_cons]
        omega
      show (gTokensGo _ (('"' :: tail).tail)).map _ = _
      have htl2 : ('"' :: tail).tail = tail := rfl
      rw [htl2, gTokensGo_eq _ tail hlen2, hrec]
      show some _ = _
      rw [hmk]
    · have henc : encodeVal v = v.data := by
        unfold encodeVal
        rw [if_neg hs]
      rw [henc]
      have hvns : ∀ x ∈ v.data, (!isSpaceChar x) = true := by
        intro x hx
        cases hxs : isSpaceChar x
        · rfl
        · exact absurd (List.any_eq_true.mpr ⟨x, hx, hxs⟩) hs
      have hnq : (v.data ++ tail).head? ≠ some '"' := by
        cases hvd : v.data with
        | nil =>
          rw [List.nil_append]
          rcases htail with h | h
          · rw [h]
            simp
          · rw [h]
            simp
        | cons d ds =>
          have h5 : v.data.head? ≠ some '"' := hv.1
          rw [hvd] at h5
          rw [List.cons_append]
          simpa using h5
      rw [if_neg hnq]
      have hspost : (tail.head?.map (fun x => !isSpaceChar x)) ≠ some true := by
        rcases htail with h | h
        · rw [h]
          simp
        · rw [h]
          show Option.map (fun x => !isSpaceChar x) (some ' ') ≠ some true
          decide
      have htw : ((v.data ++ tail)).takeWhile (fun x => !isSpaceChar x) = v.data := by
        rw [takeWhile_append_all _ _ _ hvns, takeWhile_head_not _ _ hspost, List.append_nil]
      have hdw : ((v.data ++ tail)).dropWhile (fun x => !isSpaceChar x) = tail := by
        rw [dropWhile_append_all _ _ _ hvns, dropWhile_head_not _ _ hspost]
      rw [htw, hdw]
      have hlen : tail.length ≤ (k2 ++ '=' :: (v.data ++ tail)).length := by
        simp only [List.length_append, List.length_cons]
        omega
      rw [gTokensGo_eq _ tail hlen, hrec]
      show some _ = _
      rw [hmk]

/-- The serialization of a map of good pairs parses back to the same
token list. -/
theorem gTokens_serialize : ∀ (m : List (String × String)),
    (∀ p ∈ m, GoodPair p) → gTokens (serializeChars m) = some m := by
  intro m
  induction m with
  | nil => intro _; rfl
  | cons p rest ih =>
    intro hm
    have hp := hm p (List.mem_cons_self _ _)
    cases rest with
    | nil =>
      show gTokens (encodeTok p ++ []) = some [p]
      have := gTokens_encodeTok p.1 p.2 [] [] hp.1 hp.2 (Or.inl rfl) rfl
      rw [Prod.mk.eta] at this
      exact this
    | cons q rest2 =>
      have hrec : gTokens (' ' :: serializeChars (q :: rest2)) = some (q :: rest2) := by
        rw [gTokens_cons_space ' ' _ (by decide)]
        exact ih (fun x hx => hm x (List.mem_cons_of_mem _ hx))
      show gTokens (encodeTok p ++ ' ' :: serializeChars (q :: rest2)) = _
      have := gTokens_encodeTok p.1 p.2 (' ' :: serializeChars (q :: rest2)) (q :: rest2)
        hp.1 hp.2 (Or.inr rfl) hrec
      rw [Prod.mk.eta] at this
      exact this

theorem pyStrip_eq_self (l : List Char)
    (h1 : l.head?.map isSpaceChar ≠ some true)
    (h2 : l.getLast?.map isSpaceChar ≠ some true) : pyStrip l = l := by
  unfold pyStrip
  rw [dropWhile_head_not isSpaceChar l h1]
  have h3 : l.reverse.head?.map isSpaceChar ≠ some true := by
    rw [List.head?_reverse]
    exact h2
  rw [dropWhile_head_not isSpaceChar l.reverse h3, List.reverse_reverse]

theorem serializeChars_ne_nil (p : String × String) (rest : List (String × String))
    (hk : GoodKey p.1) : serializeChars (p :: rest) ≠ [] := by
  show encodeTok p ++ _ ≠ []
  unfold encodeTok
  cases hkd : p.1.data with
  | nil => exact absurd hkd hk.1
  | cons c k2 => simp

theorem serializeChars_head (m : List (String × String))
    (hm : ∀ p ∈ m, GoodPair p) :
    (serializeChars m).head?.map isSpaceChar ≠ some true := by
  cases m with
  | nil => simp [serializeChars]
  | cons p rest =>
    have hk := (hm p (List.mem_cons_self _ _)).1
    show ((encodeTok p ++ _).head?.map isSpaceChar) ≠ some true
    unfold encodeTok
    cases hkd : p.1.data with
    | nil => exact absurd hkd hk.1
    | cons c k2 =>
      have hw : isWordChar c = true := by
        apply hk.2
        rw [hkd]
        exact List.mem_cons_self _ _
      rw [List.cons_append, List.cons_append, List.head?_cons]
      rw [Option.map_some', word_not_space c hw]
      simp

theorem getLast?_cons_append_ne (a : Char) (l1 l2 : List Char) (h : l2 ≠ []) :
    (l1 ++ a :: l2).getLast? = l2.getLast? := by
  rw [List.getLast?_append, show a :: l2 = [a] ++ l2 from rfl, List.getLast?_append]
  cases hl : l2.getLast? with
  | none => exact absurd (List.getLast?_eq_none_iff.mp hl) h
  | some x => rfl

theorem serializeChars_last : ∀ (m : List (String × String)),
    (∀ p ∈ m, GoodPair p) →
    (serializeChars m).getLast?.map isSpaceChar ≠ some true := by
  intro m
  induction m with
  | nil => intro _; simp [serializeChars]
  | cons p rest ih =>
    intro hm
    have hp := hm p (List.mem_cons_self _ _)
    cases rest with
    | nil =>
      show ((encodeTok p ++ []).getLast?.map isSpaceChar) ≠ some true
      rw [List.append_nil]
      unfold encodeTok
      by_cases hs : p.2.data.any isSpaceChar = true
      · have henc : encodeVal p.2 = '"' :: (p.2.data ++ ['"']) := by
          unfold encodeVal
          rw [if_pos hs]
        rw [henc]
        have hshape : p.1.data ++ '=' :: '"' :: (p.2.data ++ ['"']) =
            (p.1.data ++ '=' :: '"' :: p.2.data) ++ ['"'] := by
          simp
        rw [hshape, List.getLast?_concat]
        decide
      · have henc : encodeVal p.2 = p.2.data := by
          unfold encodeVal
          rw [if_neg hs]
        rw [henc]
        cases hvd : p.2.data with
        | nil =>
          rw [show ('=' :: ([] : List Char)) = ['='] from rfl, List.getLast?_concat]
          decide
        | cons d ds =>
          rw [getLast?_cons_append_ne '=' p.1.data (d :: ds) (by simp)]
          cases hgl : (d :: ds).getLast? with
          | none => simp at hgl
          | some x =>
            have hx : x ∈ p.2.data := by
              rw [hvd]
              exact List.mem_of_mem_getLast? hgl
            have hxs : isSpaceChar x = false := by
              cases hxx : isSpaceChar x
              · rfl
              · exact absurd (List.any_eq_true.mpr ⟨x, hx, hxx⟩) hs
            rw [Option.map_some', hxs]
            simp
    | cons q rest2 =>
      have hq := (hm q (List.mem_cons_of_mem _ (List.mem_cons_self _ _))).1
      have hne : serializeChars (q :: rest2) ≠ [] := serializeChars_ne_nil q rest2 hq
      show ((encodeTok p ++ ' ' :: serializeChars (q :: rest2)).getLast?.map isSpaceChar) ≠
        some true
      rw [getLast?_cons_append_ne ' ' (encodeTok p) _ hne]
      exact ih (fun x hx => hm x (List.mem_cons_of_mem _ hx))

/-- Parsing the serialization of a canonical map returns the map. -/
theorem parse_serialize (m : List (String × String))
    (hm : ∀ p ∈ m, GoodPair p) (hnodup : (envKeys m).Nodup) :
    parse_env_vars (serialize_env m) = m := by
  unfold parse_env_vars serialize_env
  have hdata : (String.mk (serializeChars m)).data = serializeChars m := rfl
  rw [hdata, pyStrip_eq_self _ (serializeChars_head m hm) (serializeChars_last m hm),
    findMatches_of_gTokens _ m (gTokens_serialize m hm)]
  exact dictUpdateMany_nil_self m hnodup

/-! ## Claim theorems -/

/-- C1 (counterexample): the claim says every occurrence of `${NAME}` is
substituted when `NAME` is in the effective environment, and instantiated
at the step `echo ${X}` with environment `{X: "hello world"}` that would
force the result `echo hello world`.  The code's pattern carries a
trailing `\b` after the `}`; `}` is not a word character, so `${X}` at the
end of a step matches nothing and is left unchanged. -/
theorem c1_counterexample :
    sub_env [("X", "hello world")] "echo ${X}" = .ok "echo ${X}" ∧
    sub_env [("X", "hello world")] "echo ${X}" ≠ .ok "echo hello world" := by
  decide

/-- C1 (amended): with `NAME` bound to `v` in the effective environment,
every `$NAME` occurrence (name run maximal, i.e. not followed by a word
character) is substituted by `v`, and a `${NAME}` occurrence is
substituted exactly when the `}` is immediately followed by a word
character; the step `echo $X` with environment `{X: "hello world"}`
substitutes to `echo hello world`. -/
theorem c1_substitution_amended (env : List (String × String)) (name v : String)
    (pre post : List Char) (d : Char) (t : List Char)
    (hname : name.data ≠ [])
    (hword : ∀ c ∈ name.data, isWordChar c = true)
    (hlook : envLookup env name = some v)
    (hpre : '$' ∉ pre)
    (hpost : post.head?.map isWordChar ≠ some true)
    (hd : isWordChar d = true) :
    subEnvChars env (pre ++ '$' :: (name.data ++ post)) =
      (subEnvChars env post).map (fun r => pre ++ (v.data ++ r)) ∧
    subEnvChars env (pre ++ '$' :: '{' :: (name.data ++ '}' :: d :: t)) =
      (subEnvChars env (d :: t)).map (fun r => pre ++ (v.data ++ r)) ∧
    sub_env [("X", "hello world")] "echo $X" = .ok "echo hello world" := by
  refine ⟨?_, ?_, by decide⟩
  · rw [subEnvChars_append_front env pre _ hpre,
      subst_var_found env name v post hname hword hpost hlook]
    cases subEnvChars env post <;> rfl
  · rw [subEnvChars_append_front env pre _ hpre,
      subst_brace_found env name v d t hname hword hd hlook]
    cases subEnvChars env (d :: t) <;> rfl

/-- Witness for C1 (amended) at `pre = "echo "`, `name = "X"`,
`v = "hello world"`, `post = []`, `d = 'y'`. -/
theorem c1_substitution_amended_witness :
    subEnvChars [("X", "hello world")] ("echo ".data ++ '$' :: ("X".data ++ [])) =
      (subEnvChars [("X", "hello world")] []).map
        (fun r => "echo ".data ++ ("hello world".data ++ r)) ∧
    subEnvChars [("X", "hello world")]
        ("echo ".data ++ '$' :: '{' :: ("X".data ++ '}' :: 'y' :: [])) =
      (subEnvChars [("X", "hello world")] ('y' :: [])).map
        (fun r => "echo ".data ++ ("hello world".data ++ r)) ∧
    sub_env [("X", "hello world")] "echo $X" = .ok "echo hello world" :=
  c1_substitution_amended [("X", "hello world")] "X" "hello world"
    "echo ".data [] 'y' [] (by decide) (by decide) (by decide) (by decide)
    (by decide) (by decide)

/-- C2: for every selected version, the Matrix Expander iterates the env
alternatives in order and, within each, the synthetic empty row followed
by the configured rows, skipping rows pinned to a different version; each
emitted `RunSpec` carries the parsed env alternative overlaid with the
parsed row env (row keys win), with sequence indices in generation
order. -/
theorem c2_matrix_expansion (cfg : TravisConfig) (rust_ver : String) :
    expandVer cfg rust_ver = expandVerSpec cfg rust_ver :=
  expandVer_eq_spec cfg rust_ver

/-- C3: the sequence indices of the `RunSpec`s emitted for one version
are exactly `0, 1, ..., k-1` in generation order, with no gaps, however
many rows were skipped because of a pinned-version mismatch. -/
theorem c3_seq_index_invariant (cfg : TravisConfig) (rust_ver : String) :
    (expandVer cfg rust_ver).map (fun s => s.seqId) =
      List.range (expandVer cfg rust_ver).length :=
  expandVer_seq_ids cfg rust_ver

/-- C4 (counterexample): the claim says duplicate include requests are
ignored (first occurrence wins), so defaults `[a,b,c]` with arguments
`[b,b]` would resolve to `[b]`.  In the code the second `b` fails the
`arg not in include_vers` test, falls through both branches and hits
`sys.exit(1)`: a duplicated version argument is a usage error. -/
theorem c4_counterexample :
    resolveVers ["a", "b", "c"] ["b", "b"] = .error "b" ∧
    resolveVers ["a", "b", "c"] ["b", "b"] ≠ .ok ["b"] := by
  decide

/-- C4 (amended): when every argument is recognized and no version is
requested twice, the resolved list is the explicit include list (the
arguments naming default versions, in order) — or the full default list
if there is none — minus the exclude set; defaults `[a,b,c]` with
arguments `[b,-a]` resolve to `[b]`, and with `[-a]` alone to `[b,c]`. -/
theorem c4_selector_amended (defaults args : List String)
    (hrec : ∀ a ∈ args, recognizedArg defaults a)
    (hnodup : (args.filter (fun a => a ∈ defaults)).Nodup) :
    resolveVers defaults args = .ok (specResolve defaults args) ∧
    resolveVers ["a", "b", "c"] ["b", "-a"] = .ok ["b"] ∧
    resolveVers ["a", "b", "c"] ["-a"] = .ok ["b", "c"] :=
  ⟨resolveVers_eq_spec defaults args hrec hnodup, by decide, by decide⟩

/-- Witness for C4 (amended) at defaults `["a","b","c"]`,
arguments `["b","-a"]`. -/
theorem c4_selector_amended_witness :
    resolveVers ["a", "b", "c"] ["b", "-a"] =
      .ok (specResolve ["a", "b", "c"] ["b", "-a"]) ∧
    resolveVers ["a", "b", "c"] ["b", "-a"] = .ok ["b"] ∧
    resolveVers ["a", "b", "c"] ["-a"] = .ok ["b", "c"] :=
  c4_selector_amended ["a", "b", "c"] ["b", "-a"] (by decide) (by decide)

/-- C5 (counterexample): the claim says a step referencing a variable
absent from the effective environment always raises
`UndefinedVariableError` and is never silently left unsubstituted.  The
step `echo ${UNSET}` with an empty environment is returned unchanged with
no error: the pattern's trailing `\b` fails after `}` at end of step, so
the reference matches nothing. -/
theorem c5_counterexample :
    sub_env [] "echo ${UNSET}" = .ok "echo ${UNSET}" ∧
    envLookup [] "UNSET" = none := by
  decide

/-- C5 (amended): a reference matched by the substitution pattern —
`$NAME` anywhere, or `${NAME}` whose `}` is immediately followed by a
word character — to a name absent from the effective environment raises
the `KeyError` before the step executes; it escapes `run_script`
unhandled and aborts the whole matrix run, which `main` reports as an
uncaught error with exit status 1.  A `${NAME}` reference not followed by
a word character is silently left unsubstituted instead. -/
theorem c5_undefined_variable_amended (env : List (String × String)) (name : String)
    (pre : List Char) (post : List Char) (d : Char) (t : List Char)
    (ver : String) (i : Nat) (renv os : List (String × String)) (exec : String → Bool)
    (cmd : String) (rest : List String) (spec : RunSpec) (more : List RunSpec)
    (cfg : TravisConfig) (args vers : List String) (n : String)
    (hname : name.data ≠ [])
    (hword : ∀ c ∈ name.data, isWordChar c = true)
    (hlook : envLookup env name = none)
    (hpre : '$' ∉ pre)
    (hpost : post.head?.map isWordChar ≠ some true)
    (hd : isWordChar d = true) :
    subEnvChars env (pre ++ '$' :: (name.data ++ post)) = .error name ∧
    subEnvChars env (pre ++ '$' :: '{' :: (name.data ++ '}' :: d :: t)) = .error name ∧
    subEnvChars env (pre ++ '$' :: '{' :: (name.data ++ ['}'])) =
      .ok (pre ++ '$' :: '{' :: (name.data ++ ['}'])) ∧
    (sub_env (effectiveEnv ver i renv os) cmd = .error n →
      run_script (cmd :: rest) ver i renv os exec = .error n) ∧
    (run_script (cmd :: rest) ver i spec.env os exec = .error n →
      runSpecList (cmd :: rest) os exec
        ({ version := ver, seqId := i, env := spec.env } :: more) = .error n) ∧
    (resolveVers cfg.rust args = .ok vers →
      runSpecList (translate_script cfg.script) os exec (expandAll cfg vers) = .error n →
      mainModel cfg args os exec = .uncaught n ∧
        exitCode (mainModel cfg args os exec) = 1) := by
  refine ⟨?_, ?_, ?_, ?_, ?_, ?_⟩
  · rw [subEnvChars_append_front env pre _ hpre,
      subst_var_absent env name post hname hword hpost hlook]
    rfl
  · rw [subEnvChars_append_front env pre _ hpre,
      subst_brace_absent env name d t hname hword hd hlook]
    rfl
  · rw [subEnvChars_append_front env pre _ hpre, subst_brace_at_end env name hword]
    rfl
  · intro h
    exact run_script_sub_error ver i renv os exec cmd rest n h
  · intro h
    exact runSpecList_aborts (cmd :: rest) os exec
      { version := ver, seqId := i, env := spec.env } more n h
  · intro h1 h2
    have hh := mainModel_char cfg args os exec
    rw [h1] at hh
    have hh2 : mainModel cfg args os exec =
        match runSpecList (translate_script cfg.script) os exec (expandAll cfg vers) with
        | .error e => MainOutcome.uncaught e
        | .ok results => MainOutcome.done results := hh
    rw [h2] at hh2
    exact ⟨hh2, by rw [hh2]; rfl⟩

/-- Witness for C5 (amended) at `name = "UNSET"`, `pre = "echo "`,
step `echo $UNSET`, and a one-version configuration whose script
references `$UNSET`. -/
theorem c5_undefined_variable_amended_witness :
    subEnvChars [] ("echo ".data ++ '$' :: ("UNSET".data ++ [])) = .error "UNSET" ∧
    subEnvChars [] ("echo ".data ++ '$' :: '{' :: ("UNSET".data ++ '}' :: 'y' :: [])) =
      .error "UNSET" ∧
    subEnvChars [] ("echo ".data ++ '$' :: '{' :: ("UNSET".data ++ ['}'])) =
      .ok ("echo ".data ++ '$' :: '{' :: ("UNSET".data ++ ['}'])) ∧
    (sub_env (effectiveEnv "s" 0 [] []) "echo $UNSET" = .error "UNSET" →
      run_script ["echo $UNSET"] "s" 0 [] [] (fun _ => true) = .error "UNSET") ∧
    (run_script ["echo $UNSET"] "s" 0 (RunSpec.mk "s" 0 []).env [] (fun _ => true) =
        .error "UNSET" →
      runSpecList ["echo $UNSET"] [] (fun _ => true)
        ({ version := "s", seqId := 0, env := (RunSpec.mk "s" 0 []).env } :: []) =
          .error "UNSET") ∧
    (resolveVers (TravisConfig.mk "echo $UNSET" ["s"] none []).rust [] = .ok ["s"] →
      runSpecList (translate_script (TravisConfig.mk "echo $UNSET" ["s"] none []).script)
          [] (fun _ => true)
          (expandAll (TravisConfig.mk "echo $UNSET" ["s"] none []) ["s"]) =
        .error "UNSET" →
      mainModel (TravisConfig.mk "echo $UNSET" ["s"] none []) [] [] (fun _ => true) =
          .uncaught "UNSET" ∧
        exitCode (mainModel (TravisConfig.mk "echo $UNSET" ["s"] none [])
          [] [] (fun _ => true)) = 1) :=
  c5_undefined_variable_amended [] "UNSET" "echo ".data [] 'y' [] "s" 0 [] []
    (fun _ => true) "echo $UNSET" [] (RunSpec.mk "s" 0 []) []
    (TravisConfig.mk "echo $UNSET" ["s"] none []) [] ["s"] "UNSET"
    (by decide) (by decide) (by decide) (by decide) (by decide) (by decide)

/-- C6: in a run whose steps all substitute, if step `i` is the first
whose command fails, the commands executed are exactly steps `0..i` and
the run's result is `success = false`; the run succeeds only if all `n`
steps ran and each succeeded; and whatever one run's flag is, the matrix
continues with the next run specification. -/
theorem c6_step_short_circuit (script : List String) (ver : String) (i : Nat)
    (renv os : List (String × String)) (exec : String → Bool)
    (subs cA : List String) (cFail : String) (cB l : List String)
    (spec : RunSpec) (more : List RunSpec) (res : Bool × List String)
    (hsubs : subAll (effectiveEnv ver i renv os) script = .ok subs) :
    ((∀ c ∈ subs, exec (commandLine ver c) = true) →
      run_script script ver i renv os exec = .ok (true, subs.map (commandLine ver))) ∧
    (subs.map (commandLine ver) = cA ++ cFail :: cB →
      (∀ c ∈ cA, exec c = true) → exec cFail = false →
      run_script script ver i renv os exec = .ok (false, cA ++ [cFail])) ∧
    (run_script script ver i renv os exec = .ok (true, l) →
      l = subs.map (commandLine ver) ∧ ∀ c ∈ l, exec c = true) ∧
    (run_script script spec.version spec.seqId spec.env os exec = .ok res →
      runSpecList script os exec (spec :: more) =
        (runSpecList script os exec more).map
          (fun lst => (spec.version, spec.seqId, res.1) :: lst)) :=
  ⟨fun h => runSteps_all_ok _ _ _ script subs hsubs h,
   fun h1 h2 h3 => runSteps_first_fail _ _ _ script subs cA cFail cB hsubs h1 h2 h3,
   fun h => runSteps_true_char _ _ _ script subs l hsubs h,
   fun h => runSpecList_continues script os exec spec more res h⟩

/-- Witness for C6 at a three-step script whose second command fails. -/
theorem c6_step_short_circuit_witness :
    ((∀ c ∈ ["echo 1", "boom", "later"],
        (fun cl => cl != "multirust run s boom") (commandLine "s" c) = true) →
      run_script ["echo $X", "boom", "later"] "s" 0 [("X", "1")] []
          (fun cl => cl != "multirust run s boom") =
        .ok (true, List.map (commandLine "s") ["echo 1", "boom", "later"])) ∧
    (List.map (commandLine "s") ["echo 1", "boom", "later"] =
        ["multirust run s echo 1"] ++ "multirust run s boom" :: ["multirust run s later"] →
      (∀ c ∈ ["multirust run s echo 1"],
        (fun cl => cl != "multirust run s boom") c = true) →
      (fun cl => cl != "multirust run s boom") "multirust run s boom" = false →
      run_script ["echo $X", "boom", "later"] "s" 0 [("X", "1")] []
          (fun cl => cl != "multirust run s boom") =
        .ok (false, ["multirust run s echo 1"] ++ ["multirust run s boom"])) ∧
    (run_script ["echo $X", "boom", "later"] "s" 0 [("X", "1")] []
        (fun cl => cl != "multirust run s boom") = .ok (true, []) →
      ([] : List String) = List.map (commandLine "s") ["echo 1", "boom", "later"] ∧
        ∀ c ∈ ([] : List String), (fun cl => cl != "multirust run s boom") c = true) ∧
    (run_script ["echo $X", "boom", "later"] (RunSpec.mk "s" 0 [("X", "1")]).version
        (RunSpec.mk "s" 0 [("X", "1")]).seqId (RunSpec.mk "s" 0 [("X", "1")]).env []
        (fun cl => cl != "multirust run s boom") = .ok (false, ["multirust run s echo 1",
          "multirust run s boom"]) →
      runSpecList ["echo $X", "boom", "later"] [] (fun cl => cl != "multirust run s boom")
          (RunSpec.mk "s" 0 [("X", "1")] :: []) =
        (runSpecList ["echo $X", "boom", "later"] [] (fun cl => cl != "multirust run s boom")
            []).map (fun lst => ("s", 0, false) :: lst)) :=
  c6_step_short_circuit ["echo $X", "boom", "later"] "s" 0 [("X", "1")] []
    (fun cl => cl != "multirust run s boom") ["echo 1", "boom", "later"]
    ["multirust run s echo 1"] "multirust run s boom" ["multirust run s later"] []
    (RunSpec.mk "s" 0 [("X", "1")]) [] (false, ["multirust run s echo 1",
      "multirust run s boom"]) (by decide)

/-- C7: for a raw environment string with no malformed tokens, parsing,
re-serializing the map as whitespace-separated `KEY=value` tokens
(double-quoting each value that contains whitespace) and parsing the
serialized string again yields the same map. -/
theorem c7_roundtrip (s : String) (h : WellFormedEnvStr s) :
    parse_env_vars (serialize_env (parse_env_vars s)) = parse_env_vars s := by
  have h2 : ∃ toks, gTokens (pyStrip s.data) = some toks := by
    unfold WellFormedEnvStr at h
    cases hg : gTokens (pyStrip s.data) with
    | none => rw [hg] at h; simp at h
    | some toks => exact ⟨toks, rfl⟩
  rcases h2 with ⟨toks, htoks⟩
  have hp : parse_env_vars s = dictUpdateMany [] toks := by
    unfold parse_env_vars
    rw [findMatches_of_gTokens _ toks htoks]
  have hgood : ∀ p ∈ dictUpdateMany [] toks, GoodPair p := by
    intro p hmem
    rcases mem_dictUpdateMany toks [] p hmem with h3 | h3
    · simp at h3
    · exact gTokens_pairs_good _ toks htoks p h3
  have hnodup : (envKeys (dictUpdateMany [] toks)).Nodup :=
    nodup_envKeys_dictUpdateMany toks [] (by simp [envKeys])
  rw [hp]
  exact parse_serialize _ hgood hnodup

/-- Witness for C7 at `A=1 B="x y" A=2` (a duplicate key and a quoted
value containing whitespace). -/
theorem c7_roundtrip_witness :
    parse_env_vars (serialize_env (parse_env_vars "A=1 B=\"x y\" A=2")) =
      parse_env_vars "A=1 B=\"x y\" A=2" :=
  c7_roundtrip "A=1 B=\"x y\" A=2" (by decide)

/-- C8: an argument list containing a token that is neither a default
version nor a `-`-prefixed default version makes `main` fail with a usage
error — exit status 1, reported before any run specification executes, so
the run phase (and its log output) never happens. -/
theorem c8_usage_error (cfg : TravisConfig) (args : List String)
    (os : List (String × String)) (exec : String → Bool)
    (h : ∃ a ∈ args, ¬recognizedArg cfg.rust a) :
    ∃ b ∈ args, mainModel cfg args os exec = .usage b ∧
      exitCode (mainModel cfg args os exec) = 1 ∧
      ∀ r, mainModel cfg args os exec ≠ .done r := by
  rcases selectLoop_error cfg.rust args [] [] h with ⟨b, hb, he⟩
  have hres : resolveVers cfg.rust args = .error b := by
    unfold resolveVers
    rw [he]
  have hm : mainModel cfg args os exec = .usage b := by
    unfold mainModel
    rw [hres]
  refine ⟨b, hb, hm, by rw [hm]; rfl, ?_⟩
  intro r hr
  rw [hm] at hr
  exact MainOutcome.noConfusion hr

/-- Witness for C8 at defaults `["a"]` and argument list `["zzz"]`. -/
theorem c8_usage_error_witness :
    ∃ b ∈ ["zzz"], mainModel (TravisConfig.mk "true" ["a"] none []) ["zzz"] []
        (fun _ => true) = .usage b ∧
      exitCode (mainModel (TravisConfig.mk "true" ["a"] none []) ["zzz"] []
        (fun _ => true)) = 1 ∧
      ∀ r, mainModel (TravisConfig.mk "true" ["a"] none []) ["zzz"] []
        (fun _ => true) ≠ .done r :=
  c8_usage_error (TravisConfig.mk "true" ["a"] none []) ["zzz"] [] (fun _ => true)
    (by decide)

/-- C9: when the matrix run completes, the process exit status is 0 no
matter how many individual runs failed: two completing invocations differ
only in their results list, never in exit status; a non-zero status
arises only from the usage-error (or uncaught-exception) paths. -/
theorem c9_exit_code_independent (cfg : TravisConfig) (args : List String)
    (os : List (String × String)) (exec exec2 : String → Bool)
    (r r2 : List (String × Nat × Bool))
    (h : mainModel cfg args os exec = .done r) :
    exitCode (mainModel cfg args os exec) = 0 ∧
    (mainModel cfg args os exec2 = .done r2 →
      exitCode (mainModel cfg args os exec) = exitCode (mainModel cfg args os exec2)) :=
  ⟨by rw [h]; rfl, fun h2 => by rw [h, h2]; rfl⟩

/-- Witness for C9: the same one-run configuration with an oracle that
succeeds and one that fails — both exit 0. -/
theorem c9_exit_code_independent_witness :
    exitCode (mainModel (TravisConfig.mk "true" ["s"] none []) [] []
      (fun _ => true)) = 0 ∧
    (mainModel (TravisConfig.mk "true" ["s"] none []) [] [] (fun _ => false) =
        .done [("s", 0, false)] →
      exitCode (mainModel (TravisConfig.mk "true" ["s"] none []) [] []
          (fun _ => true)) =
        exitCode (mainModel (TravisConfig.mk "true" ["s"] none []) [] []
          (fun _ => false))) :=
  c9_exit_code_independent (TravisConfig.mk "true" ["s"] none []) [] []
    (fun _ => true) (fun _ => false) [("s", 0, true)] [("s", 0, false)] (by decide)

/-- C10: an `env` key bound to the empty list produces zero `RunSpec`s
for every version and an empty results list; the single-empty-string
fallback applies only when the `env` key is absent entirely. -/
theorem c10_empty_env_list (cfg cfg2 : TravisConfig) (ver : String)
    (args vers : List String) (os : List (String × String)) (exec : String → Bool)
    (h : cfg.env = some []) (h2 : cfg2.env = none) :
    expandVer cfg ver = [] ∧
    (resolveVers cfg.rust args = .ok vers →
      mainModel cfg args os exec = .done []) ∧
    expandVer cfg2 ver = expandVer { cfg2 with env := some [""] } ver := by
  have hev : ∀ v, expandVer cfg v = [] := by
    intro v
    unfold expandVer
    rw [h]
    rfl
  refine ⟨hev ver, ?_, ?_⟩
  · intro hres
    have hall : ∀ vs, expandAll cfg vs = [] := by
      intro vs
      induction vs with
      | nil => rfl
      | cons v vs ih =>
        show expandVer cfg v ++ expandAll cfg vs = []
        rw [hev v, ih]
        rfl
    have hh := mainModel_char cfg args os exec
    rw [hres] at hh
    have hh2 : mainModel cfg args os exec =
        match runSpecList (translate_script cfg.script) os exec (expandAll cfg vers) with
        | .error e => MainOutcome.uncaught e
        | .ok results => MainOutcome.done results := hh
    rw [hall vers] at hh2
    exact hh2
  · unfold expandVer
    rw [h2]
    rfl

/-- Witness for C10: an explicit empty `env` list yields no runs; an
absent `env` key equals a single empty alternative. -/
theorem c10_empty_env_list_witness :
    expandVer (TravisConfig.mk "true" ["s"] (some []) []) "s" = [] ∧
    (resolveVers (TravisConfig.mk "true" ["s"] (some []) []).rust [] = .ok ["s"] →
      mainModel (TravisConfig.mk "true" ["s"] (some []) []) [] [] (fun _ => true) =
        .done []) ∧
    expandVer (TravisConfig.mk "true" ["s"] none []) "s" =
      expandVer { TravisConfig.mk "true" ["s"] none [] with env := some [""] } "s" :=
  c10_empty_env_list (TravisConfig.mk "true" ["s"] (some []) [])
    (TravisConfig.mk "true" ["s"] none []) "s" [] ["s"] [] (fun _ => true)
    (by decide) (by decide)

end TestMatrix
